import Mathlib

/-!
Verification of the IRC client library (`irc` package source tree) against
its natural-language specification.

Python strings are modelled as `List Char`; byte strings as `List Nat`
(each element intended `< 256`).  Python exceptions are modelled with
`Except`/`Option`; mutable state is passed explicitly.
-/

set_option maxHeartbeats 1000000
set_option maxRecDepth 8000

namespace Irc

/-- Python strings are modelled as lists of characters. -/
abbrev PyStr := List Char

/-- Byte strings are modelled as lists of naturals (each `< 256`). -/
abbrev Bytes := List Nat

/-! ### Python string primitives -/

/-- Python `str.lower` restricted to ASCII: maps `A`–`Z` to `a`–`z`
(the library only ever lowercases ASCII protocol words). -/
def pyLowerChar (c : Char) : Char :=
  if 65 ≤ c.toNat ∧ c.toNat ≤ 90 then Char.ofNat (c.toNat + 32) else c

/-- `str.lower` on a whole string. -/
def pyLower (s : PyStr) : PyStr := s.map pyLowerChar

/-- Split a list on a separator element, Python `str.split(sep)` style:
every separator produces a boundary and empty parts are kept.  The result
is always non-empty. -/
def splitOnE {α : Type} [DecidableEq α] (sep : α) : List α → List (List α)
  | [] => [[]]
  | a :: rest =>
    if a = sep then [] :: splitOnE sep rest
    else (a :: (splitOnE sep rest).headI) :: (splitOnE sep rest).tail

/-- `splitOnE` never returns an empty list of parts. -/
theorem splitOnE_ne_nil {α : Type} [DecidableEq α] (sep : α) (l : List α) :
    splitOnE sep l ≠ [] := by
  cases l with
  | nil => simp [splitOnE]
  | cons a rest =>
    simp only [splitOnE]
    split <;> simp

/-- Whether `c` is one of the characters Python's argument-free
`str.split()` treats as whitespace (ASCII fragment). -/
def pyIsSpace (c : Char) : Bool :=
  c = ' ' || c = '\t' || c = '\n' || c = '\r' || c = '\x0b' || c = '\x0c'

theorem dropWhileLenLe {α : Type} (p : α → Bool) (l : List α) :
    (l.dropWhile p).length ≤ l.length := by
  induction l with
  | nil => simp
  | cons a t ih =>
    rw [List.dropWhile_cons]
    split
    · exact le_trans ih (by simp)
    · simp

/-- Python `str.split()` with no argument: split on runs of whitespace,
discarding empty parts. -/
def pySplitWs (s : PyStr) : List PyStr :=
  match s with
  | [] => []
  | c :: rest =>
    if pyIsSpace c then pySplitWs rest
    else (c :: rest.takeWhile (fun d => ¬ pyIsSpace d)) ::
      pySplitWs (rest.dropWhile (fun d => ¬ pyIsSpace d))
termination_by s.length
decreasing_by
  all_goals
    have h := dropWhileLenLe (fun d => decide ¬ pyIsSpace d = true) rest
    simp only [List.length_cons]
    omega

/-- First index at which `pat` occurs as a contiguous sublist of `s`
(`str.find`). -/
def findSub {α : Type} [DecidableEq α] (s pat : List α) : Option Nat :=
  match s with
  | [] => if pat = [] then some 0 else none
  | _ :: rest =>
    if s.take pat.length = pat then some 0
    else (findSub rest pat).map (· + 1)

/-- Python `str.partition(sep)`: split at the first occurrence of `sep`.
Returns `(before, found, after)`. -/
def partitionOn {α : Type} [DecidableEq α] (s sep : List α) :
    List α × Bool × List α :=
  match findSub s sep with
  | some i => (s.take i, true, s.drop (i + sep.length))
  | none => (s, false, [])

/-- UTF-8 encoding of a single character (as in CPython's `str.encode`;
Lean `Char` excludes surrogates, as does a well-formed Python `str`
being encoded). -/
def utf8EncodeChar (c : Char) : Bytes :=
  if c.toNat < 0x80 then [c.toNat]
  else if c.toNat < 0x800 then [0xC0 + c.toNat / 64, 0x80 + c.toNat % 64]
  else if c.toNat < 0x10000 then
    [0xE0 + c.toNat / 4096, 0x80 + c.toNat / 64 % 64, 0x80 + c.toNat % 64]
  else
    [0xF0 + c.toNat / 262144, 0x80 + c.toNat / 4096 % 64,
      0x80 + c.toNat / 64 % 64, 0x80 + c.toNat % 64]

/-- UTF-8 encoding of a string (`str.encode('utf-8')`). -/
def utf8Encode (s : PyStr) : Bytes := s.flatMap utf8EncodeChar

/-- `(Char.ofNat n).toNat = n` for any valid scalar value. -/
theorem char_toNat_ofNat_valid (n : Nat) (h : n.isValidChar) :
    (Char.ofNat n).toNat = n := by
  unfold Char.ofNat
  rw [dif_pos h]
  unfold Char.ofNatAux Char.toNat
  simp [UInt32.toNat, BitVec.toNat_ofNatLt]

theorem char_ne_of_toNat_ne {a b : Char} (h : a.toNat ≠ b.toNat) : a ≠ b :=
  fun hab => h (hab ▸ rfl)

/-! ### `irc.strings`: RFC 1459 case folding (`IRCFoldedCase.lower`) -/

/-- The character translation used by `IRCFoldedCase.lower`: ASCII
`A`–`Z` map to `a`–`z` and `[ ] \ ^` map to `{ } | ~`; everything else is
unchanged (`str.translate` leaves unmapped characters as they are). -/
def ircLowerChar (c : Char) : Char :=
  if 65 ≤ c.toNat ∧ c.toNat ≤ 90 then Char.ofNat (c.toNat + 32)
  else if c = '[' then '{'
  else if c = ']' then '}'
  else if c = '\\' then '|'
  else if c = '^' then '~'
  else c

/-- `IRCFoldedCase.lower` / `irc.strings.lower`: fold a whole string. -/
def ircLower (s : PyStr) : PyStr := s.map ircLowerChar

theorem ircLowerChar_idem (c : Char) :
    ircLowerChar (ircLowerChar c) = ircLowerChar c := by
  by_cases h : 65 ≤ c.toNat ∧ c.toNat ≤ 90
  · have hval : (Char.ofNat (c.toNat + 32)).toNat = c.toNat + 32 :=
      char_toNat_ofNat_valid _ (Or.inl (by omega))
    have h1 : ¬ (65 ≤ (Char.ofNat (c.toNat + 32)).toNat ∧
        (Char.ofNat (c.toNat + 32)).toNat ≤ 90) := by omega
    have h2 : Char.ofNat (c.toNat + 32) ≠ '[' :=
      char_ne_of_toNat_ne
        (by rw [hval, show '['.toNat = 91 from rfl]; omega)
    have h3 : Char.ofNat (c.toNat + 32) ≠ ']' :=
      char_ne_of_toNat_ne
        (by rw [hval, show ']'.toNat = 93 from rfl]; omega)
    have h4 : Char.ofNat (c.toNat + 32) ≠ '\\' :=
      char_ne_of_toNat_ne
        (by rw [hval, show '\\'.toNat = 92 from rfl]; omega)
    have h5 : Char.ofNat (c.toNat + 32) ≠ '^' :=
      char_ne_of_toNat_ne
        (by rw [hval, show '^'.toNat = 94 from rfl]; omega)
    simp only [ircLowerChar, if_pos h, if_neg h1, if_neg h2, if_neg h3,
      if_neg h4, if_neg h5]
  · simp only [ircLowerChar, if_neg h]
    by_cases h2 : c = '['
    · subst h2; decide
    · by_cases h3 : c = ']'
      · subst h3; decide
      · by_cases h4 : c = '\\'
        · subst h4; decide
        · by_cases h5 : c = '^'
          · subst h5; decide
          · simp only [if_neg h2, if_neg h3, if_neg h4, if_neg h5,
              ircLowerChar, if_neg h]

theorem ircLower_idem (s : PyStr) : ircLower (ircLower s) = ircLower s := by
  simp [ircLower, List.map_map, Function.comp_def, ircLowerChar_idem]

/-! ### `irc.dict`: `IRCDict`, a dict whose keys are compared case-folded

`KeyTransformingDict` wraps every key in `IRCFoldedCase`, whose equality
and hash are those of the folded string while the original spelling is
retained.  We model such a dict as an association list whose stored keys
keep their original spelling and are compared via a fold function. -/

/-- Dict lookup: value of the first (and, for dicts built by `fdSet`,
only) entry whose folded key matches. -/
def fdGet? {κ ν : Type} [DecidableEq κ] (fold : κ → κ)
    (d : List (κ × ν)) (k : κ) : Option ν :=
  (d.find? fun e => fold e.1 = fold k).map (·.2)

/-- Dict store (`d[k] = v`): update the value of an existing matching
entry (keeping its original key spelling) or append a new entry. -/
def fdSet {κ ν : Type} [DecidableEq κ] (fold : κ → κ)
    (d : List (κ × ν)) (k : κ) (v : ν) : List (κ × ν) :=
  match d with
  | [] => [(k, v)]
  | e :: rest =>
    if fold e.1 = fold k then (e.1, v) :: rest
    else e :: fdSet fold rest k v

/-- Dict `pop` (no default): value and remaining dict, or `none`
(`KeyError`) when no entry matches. -/
def fdPop? {κ ν : Type} [DecidableEq κ] (fold : κ → κ)
    (d : List (κ × ν)) (k : κ) : Option (ν × List (κ × ν)) :=
  match d with
  | [] => none
  | e :: rest =>
    if fold e.1 = fold k then some (e.2, rest)
    else (fdPop? fold rest k).map fun r => (r.1, e :: r.2)

/-- Dict `pop(k, default)` / `del` with the entry simply removed:
the dict with the first matching entry removed (unchanged if absent). -/
def fdErase {κ ν : Type} [DecidableEq κ] (fold : κ → κ)
    (d : List (κ × ν)) (k : κ) : List (κ × ν) :=
  match fdPop? fold d k with
  | some r => r.2
  | none => d

/-- Dict membership (`k in d`). -/
def fdContains {κ ν : Type} [DecidableEq κ] (fold : κ → κ)
    (d : List (κ × ν)) (k : κ) : Bool :=
  d.any fun e => fold e.1 = fold k

/-- An `IRCDict`: keys are strings compared after RFC 1459 folding. -/
abbrev IRCDictM (ν : Type) := List (PyStr × ν)

theorem fdGet?_set_empty {ν : Type} (fold : PyStr → PyStr) (x y : PyStr)
    (v : ν) :
    fdGet? fold (fdSet fold ([] : IRCDictM ν) x v) y
      = if fold x = fold y then some v else none := by
  by_cases h : fold x = fold y <;> simp [fdSet, fdGet?, List.find?, h]

theorem fdPop?_set_empty {ν : Type} (fold : PyStr → PyStr) (x y : PyStr)
    (v : ν) :
    fdPop? fold (fdSet fold ([] : IRCDictM ν) x v) y
      = if fold x = fold y then some (v, []) else none := by
  by_cases h : fold x = fold y <;> simp [fdSet, fdPop?, h]

/-- C8: IRC case folding (`IRCFoldedCase.lower`) maps `[ ] \ ^` to
`{ } | ~` and ASCII `A`–`Z` to `a`–`z`, is idempotent, and two strings
`x`, `y` address the same `IRCDict` entry (insert under `x`, then look
up, resp. delete, under `y`) exactly when their folds coincide. -/
theorem C8_case_folding :
    ircLower ("ABCDEFGHIJKLMNOPQRSTUVWXYZ[]\\^".toList)
        = "abcdefghijklmnopqrstuvwxyz{}|~".toList
    ∧ (∀ s : PyStr, ircLower (ircLower s) = ircLower s)
    ∧ (∀ x y : PyStr, ircLower x = ircLower y ↔
        fdGet? ircLower (fdSet ircLower ([] : IRCDictM Nat) x 0) y = some 0)
    ∧ (∀ x y : PyStr, ircLower x = ircLower y ↔
        fdPop? ircLower (fdSet ircLower ([] : IRCDictM Nat) x 0) y
          = some (0, [])) := by
  refine ⟨by decide, ircLower_idem, fun x y => ?_, fun x y => ?_⟩
  · rw [fdGet?_set_empty]
    by_cases h : ircLower x = ircLower y <;> simp [h]
  · rw [fdPop?_set_empty]
    by_cases h : ircLower x = ircLower y <;> simp [h]

/-! ### `irc.ctcp`: CTCP dequoting -/

/-- The CTCP low-level mapping (`low_level_mapping`), applied to the
character following `\x10`; characters outside the table are returned
unchanged (`_low_level_replace`). -/
def lowLevelReplace (c : Char) : Char :=
  if c = '0' then '\x00'
  else if c = 'n' then '\n'
  else if c = 'r' then '\r'
  else if c = '\\' then '\\'
  else c

/-- Low-level dequoting: `re.sub('\x10(.)', ...)`.  `.` does not match a
newline, so `\x10` followed by `\n` (or at end of string) is left
verbatim; a matched pair is consumed whole. -/
def lowLevelDequote : PyStr → PyStr
  | [] => []
  | [c] => [c]
  | q :: c :: rest =>
    if q = '\x10' ∧ c ≠ '\n' then lowLevelReplace c :: lowLevelDequote rest
    else q :: lowLevelDequote (c :: rest)

/-- A chunk produced by `ctcp.dequote`: either plain text or a tagged
(1- or 2-element tuple) message. -/
inductive CtcpChunk : Type
  | text (s : PyStr)
  | tagged (tag : PyStr) (data : Option PyStr)
  deriving DecidableEq, Repr

/-- `tuple(chunk.split(" ", 1))`: split a tagged chunk on the first
space into `(tag,)` or `(tag, data)`. -/
def mkTagged (b : PyStr) : CtcpChunk :=
  match partitionOn b [' '] with
  | (bef, true, aft) => .tagged bef (some aft)
  | (_, false, _) => .tagged b none

/-- `ctcp._gen_messages`: walk the chunks two at a time; even positions
are texts (skipped when empty), the chunk after each text is a tagged
tuple unless it is the very last chunk; with an even number of chunks
the final chunk is re-joined with its delimiter and emitted as text. -/
def genMessages : List PyStr → List CtcpChunk
  | [] => []
  | [_] => []
  | [a, b] =>
    (if a ≠ [] then [CtcpChunk.text a] else []) ++ [.text ('\x01' :: b)]
  | a :: b :: c :: rest =>
    (if a ≠ [] then [CtcpChunk.text a] else []) ++
      mkTagged b :: genMessages (c :: rest)

/-- `ctcp.dequote`: low-level dequote, then split on the `\x01`
delimiter when present. -/
def dequote (message : PyStr) : List CtcpChunk :=
  let m := lowLevelDequote message
  if '\x01' ∈ m then genMessages (splitOnE '\x01' m)
  else [.text m]

/-- The output of `dequote` as the claim literally predicts it: every
even-indexed chunk a text (dropped when empty), every odd-indexed chunk
a tuple, plus the trailing-delimiter text when the message ends with
`\x01`.  (A second definition following the claim's words, for
comparison with the one translated from the source.) -/
def claimedDequote (message : PyStr) : List CtcpChunk :=
  let m := lowLevelDequote message
  if '\x01' ∈ m then
    let chunks := splitOnE '\x01' m
    (chunks.enum.flatMap fun p =>
      if p.1 % 2 = 0 then (if p.2 ≠ [] then [CtcpChunk.text p.2] else [])
      else [mkTagged p.2]) ++
    (if m.getLast? = some '\x01' then
      [CtcpChunk.text ('\x01' :: chunks.getLast!)] else [])
  else [.text m]

/-- Chunk assembly as the amended claim describes it: a non-final chunk
at even index is text unless empty and a non-final chunk at odd index is
a tuple; the final chunk is dropped when it sits at an even index and is
emitted as text preceded by the delimiter when it sits at an odd index
(i.e. when the number of chunks is even). -/
def specAssembleFrom (i : Nat) : List PyStr → List CtcpChunk
  | [c] => if i % 2 = 0 then [] else [CtcpChunk.text ('\x01' :: c)]
  | c :: rest@(_ :: _) =>
    (if i % 2 = 0 then (if c ≠ [] then [CtcpChunk.text c] else [])
     else [mkTagged c]) ++ specAssembleFrom (i + 1) rest
  | [] => []

/-- Amended-claim chunk assembly, starting at index 0. -/
def specAssemble (chunks : List PyStr) : List CtcpChunk :=
  specAssembleFrom 0 chunks

theorem specAssembleFrom_parity (l : List PyStr) :
    ∀ i j : Nat, i % 2 = j % 2 →
      specAssembleFrom i l = specAssembleFrom j l := by
  induction l with
  | nil => intro i j _; simp [specAssembleFrom]
  | cons c rest ih =>
    intro i j hij
    cases rest with
    | nil => simp only [specAssembleFrom, hij]
    | cons d rest' =>
      simp only [specAssembleFrom, hij]
      rw [ih (i + 1) (j + 1) (by omega)]

theorem genMessages_eq_specAssemble (chunks : List PyStr) :
    genMessages chunks = specAssemble chunks := by
  induction chunks using genMessages.induct with
  | case1 => simp [genMessages, specAssemble, specAssembleFrom]
  | case2 c => simp [genMessages, specAssemble, specAssembleFrom]
  | case3 a b => simp [genMessages, specAssemble, specAssembleFrom]
  | case4 a b c rest ih =>
    simp only [genMessages, specAssemble, specAssembleFrom, ih]
    rw [specAssembleFrom_parity (c :: rest) 2 0 (by omega)]
    simp

theorem splitOnE_length_eq_count {α : Type} [DecidableEq α] (sep : α)
    (l : List α) : (splitOnE sep l).length = l.count sep + 1 := by
  induction l with
  | nil => simp [splitOnE]
  | cons a rest ih =>
    simp only [splitOnE]
    by_cases h : a = sep
    · simp [h, ih, List.count_cons]
    · have hne := splitOnE_ne_nil sep rest
      simp only [if_neg h, List.length_cons]
      rw [List.length_tail]
      have : (splitOnE sep rest).length ≥ 1 :=
        Nat.one_le_iff_ne_zero.mpr (by simpa [List.length_eq_zero] using hne)
      simp [List.count_cons, h]
      omega

theorem mem_lowLevelDequote_delim (msg : PyStr) :
    '\x01' ∈ msg → '\x01' ∈ lowLevelDequote msg := by
  induction msg using lowLevelDequote.induct with
  | case1 => intro h; simp at h
  | case2 c => intro h; simpa [lowLevelDequote] using h
  | case3 q c rest hq ih =>
    intro h
    obtain ⟨rfl, hcn⟩ := hq
    rw [lowLevelDequote.eq_3, if_pos ⟨rfl, hcn⟩]
    rcases List.mem_cons.mp h with h1 | h
    · exact absurd h1 (by decide)
    rcases List.mem_cons.mp h with h2 | h3
    · rcases h2 with rfl
      rw [show lowLevelReplace '\x01' = '\x01' from by decide]
      exact List.mem_cons_self _ _
    · exact List.mem_cons_of_mem _ (ih h3)
  | case4 q c rest hq ih =>
    intro h
    rw [lowLevelDequote.eq_3, if_neg hq]
    rcases List.mem_cons.mp h with h1 | h23
    · rcases h1 with rfl
      exact List.mem_cons_self _ _
    · exact List.mem_cons_of_mem _ (ih h23)

/-- C2 (counterexample): on the message `"a\x01b"` — which contains the
delimiter and whose odd-indexed chunk is `"b"` — `dequote` emits the
final chunk as text `"\x01b"`, not as the tuple `("b",)` the claim
predicts (the claim's splitting rule, written out as `claimedDequote`,
disagrees with the code). -/
theorem C2_counterexample :
    dequote ['a', '\x01', 'b']
        = [CtcpChunk.text ['a'], CtcpChunk.text ['\x01', 'b']]
    ∧ claimedDequote ['a', '\x01', 'b']
        = [CtcpChunk.text ['a'], CtcpChunk.tagged ['b'] none]
    ∧ dequote ['a', '\x01', 'b'] ≠ claimedDequote ['a', '\x01', 'b'] := by
  refine ⟨by decide, by decide, by decide⟩

/-- C2 (amended): for every message containing `\x01`, `dequote` splits
the low-level-dequoted message on `\x01` and assembles the chunks as
follows: each non-final even-indexed chunk is emitted as text unless
empty, each non-final odd-indexed chunk is emitted as a tuple split on
the first space, the final chunk is dropped when it is even-indexed, and
when the number of chunks is even (the message has an odd number of
`\x01`, e.g. ends with a lone trailing `\x01`) the final chunk, preceded
by the delimiter, is emitted as text. -/
theorem C2_ctcp_dequote_amended (msg : PyStr) (h : '\x01' ∈ msg) :
    dequote msg = specAssemble (splitOnE '\x01' (lowLevelDequote msg)) := by
  have hm := mem_lowLevelDequote_delim msg h
  simp only [dequote, if_pos hm]
  exact genMessages_eq_specAssemble _

/-! ### `irc.modes`: nick/channel mode parsing -/

/-- One parsed mode triple `[sign, mode, argument]`. -/
abbrev ModeTriple := Char × Char × Option PyStr

/-- The per-character loop of `_parse_modes`: a `+`/`-` updates the
current sign; any other character emits a triple, consuming the next
argument token exactly when the mode is unary and arguments remain. -/
def parseModeLoop (unary : PyStr) (sign : Char) (args : List PyStr) :
    PyStr → List ModeTriple
  | [] => []
  | ch :: rest =>
    if ch = '+' ∨ ch = '-' then parseModeLoop unary ch args rest
    else if ch ∈ unary ∧ args ≠ [] then
      (sign, ch, some args.headI) :: parseModeLoop unary sign args.tail rest
    else (sign, ch, none) :: parseModeLoop unary sign args rest

/-- `modes._parse_modes`: empty input or input not starting with a sign
yields `[]`; otherwise the first whitespace token is the mode word and
the rest are argument tokens.  (The mode word necessarily starts with
the sign character, so the loop is entered with that sign current,
matching the Python loop's first iteration.) -/
def _parse_modes (mode_string unary_modes : PyStr) : List ModeTriple :=
  match mode_string with
  | [] => []
  | c0 :: _ =>
    if c0 = '+' ∨ c0 = '-' then
      match pySplitWs mode_string with
      | mode_part :: args =>
        match mode_part with
        | ch0 :: rest => parseModeLoop unary_modes ch0 args rest
        | [] => []
      | [] => []
    else []

/-- `modes.parse_nick_modes`. -/
def parse_nick_modes (mode_string : PyStr) : List ModeTriple :=
  _parse_modes mode_string []

/-- `modes.parse_channel_modes`. -/
def parse_channel_modes (mode_string : PyStr) : List ModeTriple :=
  _parse_modes mode_string ("bklvohq".toList)

theorem parseModeLoop_sign (unary : PyStr) :
    ∀ (mp : PyStr) (sign : Char) (args : List PyStr),
      (sign = '+' ∨ sign = '-') →
      ∀ t ∈ parseModeLoop unary sign args mp, t.1 = '+' ∨ t.1 = '-' := by
  intro mp
  induction mp with
  | nil => intro sign args _ t ht; simp [parseModeLoop] at ht
  | cons ch rest ih =>
    intro sign args hsign t ht
    by_cases hpm : ch = '+' ∨ ch = '-'
    · rw [parseModeLoop.eq_2, if_pos hpm] at ht
      exact ih ch args hpm t ht
    · rw [parseModeLoop.eq_2, if_neg hpm] at ht
      by_cases hu : ch ∈ unary ∧ args ≠ []
      · rw [if_pos hu] at ht
        rcases List.mem_cons.mp ht with h1 | h2
        · subst h1; exact hsign
        · exact ih sign args.tail hsign t h2
      · rw [if_neg hu] at ht
        rcases List.mem_cons.mp ht with h1 | h2
        · subst h1; exact hsign
        · exact ih sign args hsign t h2

theorem parseModeLoop_arg_none (unary : PyStr) :
    ∀ (mp : PyStr) (sign : Char) (args : List PyStr),
      ∀ t ∈ parseModeLoop unary sign args mp,
        t.2.1 ∉ unary → t.2.2 = none := by
  intro mp
  induction mp with
  | nil => intro sign args t ht; simp [parseModeLoop] at ht
  | cons ch rest ih =>
    intro sign args t ht hmem
    by_cases hpm : ch = '+' ∨ ch = '-'
    · rw [parseModeLoop.eq_2, if_pos hpm] at ht
      exact ih ch args t ht hmem
    · rw [parseModeLoop.eq_2, if_neg hpm] at ht
      by_cases hu : ch ∈ unary ∧ args ≠ []
      · rw [if_pos hu] at ht
        rcases List.mem_cons.mp ht with h1 | h2
        · subst h1; exact absurd hu.1 hmem
        · exact ih sign args.tail t h2 hmem
      · rw [if_neg hu] at ht
        rcases List.mem_cons.mp ht with h1 | h2
        · subst h1; rfl
        · exact ih sign args t h2 hmem

theorem parseModeLoop_args_prefix (unary : PyStr) :
    ∀ (mp : PyStr) (sign : Char) (args : List PyStr),
      (parseModeLoop unary sign args mp).filterMap (·.2.2) <+: args := by
  intro mp
  induction mp with
  | nil => intro sign args; simp [parseModeLoop]
  | cons ch rest ih =>
    intro sign args
    by_cases hpm : ch = '+' ∨ ch = '-'
    · rw [parseModeLoop.eq_2, if_pos hpm]
      exact ih ch args
    · rw [parseModeLoop.eq_2, if_neg hpm]
      by_cases hu : ch ∈ unary ∧ args ≠ []
      · rw [if_pos hu]
        rcases args with _ | ⟨a, args'⟩
        · exact absurd rfl hu.2
        · exact List.cons_prefix_cons.mpr ⟨rfl, by simpa using ih sign args'⟩
      · rw [if_neg hu]
        simpa using ih sign args

theorem pySplitWs_cons_nospace (c : Char) (rest : PyStr)
    (h : pyIsSpace c = false) :
    pySplitWs (c :: rest)
      = (c :: rest.takeWhile (fun d => ¬ pyIsSpace d)) ::
        pySplitWs (rest.dropWhile (fun d => ¬ pyIsSpace d)) := by
  rw [pySplitWs]
  simp [h]

/-- Either the guard of `_parse_modes` rejects the input (result `[]`),
or the result is the loop run on the mode word's tail with the sign
character `c` current and the later tokens as arguments. -/
theorem _parse_modes_cases (s unary : PyStr) :
    _parse_modes s unary = [] ∨
    ∃ (c : Char) (tk : PyStr), (c = '+' ∨ c = '-') ∧
      _parse_modes s unary = parseModeLoop unary c (pySplitWs s).tail tk := by
  cases s with
  | nil => left; rfl
  | cons c rest =>
    by_cases hc : c = '+' ∨ c = '-'
    · right
      have hns : pyIsSpace c = false := by rcases hc with rfl | rfl <;> decide
      refine ⟨c, rest.takeWhile (fun d => ¬ pyIsSpace d), hc, ?_⟩
      unfold _parse_modes
      dsimp only
      rw [if_pos hc, pySplitWs_cons_nospace c rest hns]
      rfl
    · left
      unfold _parse_modes
      dsimp only
      rw [if_neg hc]

/-- C9: mode parsing is total and well-shaped: the sign of every emitted
triple is `+` or `-`; an empty string or one not opening with a sign
parses to `[]` (for both parsers); `parse_nick_modes` never attaches an
argument; `parse_channel_modes` attaches arguments only to modes in
`bklvohq`; and the attached arguments are, in order, an initial segment
of the whitespace-separated tokens following the mode word. -/
theorem C9_mode_parsing :
    (∀ s : PyStr, s = [] ∨ (s.headI ≠ '+' ∧ s.headI ≠ '-') →
      parse_nick_modes s = [] ∧ parse_channel_modes s = [])
    ∧ (∀ (s : PyStr) (t : ModeTriple),
        t ∈ parse_channel_modes s ∨ t ∈ parse_nick_modes s →
        t.1 = '+' ∨ t.1 = '-')
    ∧ (∀ (s : PyStr) (t : ModeTriple), t ∈ parse_nick_modes s →
        t.2.2 = none)
    ∧ (∀ (s : PyStr) (t : ModeTriple), t ∈ parse_channel_modes s →
        t.2.1 ∉ ("bklvohq".toList : PyStr) → t.2.2 = none)
    ∧ (∀ s : PyStr,
        (parse_channel_modes s).filterMap (·.2.2) <+: (pySplitWs s).tail) := by
  have hsign : ∀ (s unary : PyStr) (t : ModeTriple),
      t ∈ _parse_modes s unary → t.1 = '+' ∨ t.1 = '-' := by
    intro s unary t ht
    rcases _parse_modes_cases s unary with h | ⟨c, tk, hc, h⟩
    · rw [h] at ht; simp at ht
    · rw [h] at ht
      exact parseModeLoop_sign unary tk c _ hc t ht
  have hnone : ∀ (s unary : PyStr) (t : ModeTriple),
      t ∈ _parse_modes s unary → t.2.1 ∉ unary → t.2.2 = none := by
    intro s unary t ht hmem
    rcases _parse_modes_cases s unary with h | ⟨c, tk, _, h⟩
    · rw [h] at ht; simp at ht
    · rw [h] at ht
      exact parseModeLoop_arg_none unary tk c _ t ht hmem
  have hbad : ∀ (s unary : PyStr),
      s = [] ∨ (s.headI ≠ '+' ∧ s.headI ≠ '-') →
      _parse_modes s unary = [] := by
    intro s unary hs
    rcases hs with rfl | ⟨h1, h2⟩
    · rfl
    · cases s with
      | nil => rfl
      | cons c rest =>
        simp only [List.headI] at h1 h2
        unfold _parse_modes
        dsimp only
        rw [if_neg (show ¬ (c = '+' ∨ c = '-') by tauto)]
  refine ⟨fun s hs => ⟨hbad s _ hs, hbad s _ hs⟩, ?_, ?_, ?_, ?_⟩
  · intro s t ht
    rcases ht with ht | ht
    · exact hsign s _ t ht
    · exact hsign s _ t ht
  · intro s t ht
    exact hnone s [] t ht (by simp)
  · intro s t ht hu
    exact hnone s _ t ht hu
  · intro s
    rcases _parse_modes_cases s ("bklvohq".toList) with h | ⟨c, tk, _, h⟩
    · rw [show parse_channel_modes s = _parse_modes s ("bklvohq".toList)
        from rfl, h]
      simp
    · rw [show parse_channel_modes s = _parse_modes s ("bklvohq".toList)
        from rfl, h]
      exact parseModeLoop_args_prefix _ tk c _

/-- C9 (witness): the properties of `C9_mode_parsing` instantiated on
the concrete mode strings `"+ab-c foo"` and `"ab"`. -/
theorem C9_witness :
    (parse_nick_modes ("ab".toList) = []
      ∧ parse_channel_modes ("ab".toList) = [])
    ∧ (('+', 'b', some ("foo".toList)) ∈
        parse_channel_modes ("+ab-c foo".toList) →
      (('+', 'b', some ("foo".toList)) : ModeTriple).1 = '+'
        ∨ (('+', 'b', some ("foo".toList)) : ModeTriple).1 = '-')
    ∧ (parse_channel_modes ("+ab-c foo".toList)).filterMap (·.2.2)
        <+: (pySplitWs ("+ab-c foo".toList)).tail := by
  refine ⟨C9_mode_parsing.1 _ (Or.inr (by decide)),
    fun hm => C9_mode_parsing.2.1 _ _ (Or.inl hm),
    C9_mode_parsing.2.2.2.2 _⟩

/-- C2 (witness): the amended theorem applied to `"a\x01b c\x01"`. -/
theorem C2_witness :
    ('\x01' ∈ (['a', '\x01', 'b', ' ', 'c', '\x01'] : PyStr))
    ∧ dequote ['a', '\x01', 'b', ' ', 'c', '\x01']
        = specAssemble (splitOnE '\x01'
            (lowLevelDequote ['a', '\x01', 'b', ' ', 'c', '\x01'])) :=
  ⟨by decide, C2_ctcp_dequote_amended _ (by decide)⟩

/-! ### `irc.features`: the ISUPPORT feature set -/

/-- Python exception kinds raised by the modelled code paths.
`deadlock` models re-acquiring the connection's non-reentrant
`threading.Lock` from the thread already holding it. -/
inductive PyErr : Type
  | indexError
  | keyError
  | valueError
  | typeError
  | attributeError
  | unboundLocal
  | deadlock
  deriving DecidableEq, Repr

/-- A parsed ISUPPORT feature value (the possible results of the
`_parse_*` staticmethods, plus the bare `True` used by `set`). -/
inductive FeatureValue : Type
  | flag
  | num (n : Int)
  | str (s : PyStr)
  | prefixMap (l : List (Char × Char))
  | strList (l : List PyStr)
  | intMap (l : List (PyStr × Option Int))
  deriving DecidableEq, Repr

/-- The attribute dictionary of a `FeatureSet` (`vars(self)`): attribute
name (already lowercased by `set`) to value. -/
abbrev FeatureState := List (PyStr × FeatureValue)

/-- Python `dict(pairs)` / `OrderedDict(pairs)`: first-occurrence
position, last value wins. -/
def pyDict {κ ν : Type} [DecidableEq κ] (l : List (κ × ν)) : List (κ × ν) :=
  l.foldl (fun acc e => fdSet id acc e.1 e.2) []

/-- Python `int(s)` restricted to ASCII: optional surrounding blanks,
an optional sign, then one or more digits. -/
def pyParseInt (s : PyStr) : Option Int :=
  let t := ((s.dropWhile pyIsSpace).reverse.dropWhile pyIsSpace).reverse
  let core := if t.headI = '+' ∨ t.headI = '-' then t.tail else t
  if core ≠ [] ∧ core.all (·.isDigit) then
    some ((if t.headI = '-' then -1 else 1) *
      (core.foldl (fun acc c => acc * 10 + (c.toNat - 48)) 0 : Nat))
  else none

/-- `features.string_int_pair`: `name, value = target.split(sep)` (a
`ValueError` unless the split has exactly two parts), with an empty
value becoming `None` and anything unparsable a `ValueError`. -/
def string_int_pair (target : PyStr) (sep : Char) :
    Except PyErr (PyStr × Option Int) :=
  match splitOnE sep target with
  | [name, value] =>
    if value = [] then .ok (name, none)
    else
      match pyParseInt value with
      | some n => .ok (name, some n)
      | none => .error .valueError
  | _ => .error .valueError

namespace FeatureSet

/-- `FeatureSet._parse_PREFIX`: `value.split(')')` must have exactly two
parts; the modes lose their leading `(`; the result maps prefix
characters to mode letters, insertion order preserved. -/
def _parse_PREFIX (value : PyStr) : Except PyErr FeatureValue :=
  match splitOnE ')' value with
  | [channel_modes, channel_chars] =>
    .ok (.prefixMap (pyDict (channel_chars.zip (channel_modes.drop 1))))
  | _ => .error .valueError

/-- `FeatureSet._parse_CHANMODES`: split on commas. -/
def _parse_CHANMODES (value : PyStr) : Except PyErr FeatureValue :=
  .ok (.strList (splitOnE ',' value))

/-- `FeatureSet._parse_TARGMAX`. -/
def _parse_TARGMAX (value : PyStr) : Except PyErr FeatureValue := do
  let pairs ← (splitOnE ',' value).mapM (string_int_pair · ':')
  return .intMap (pyDict pairs)

/-- `FeatureSet._parse_CHANLIMIT` (also `_parse_MAXLIST`): each key
group expands to one single-character key per character. -/
def _parse_CHANLIMIT (value : PyStr) : Except PyErr FeatureValue := do
  let pairs ← (splitOnE ',' value).mapM (string_int_pair · ':')
  return .intMap (pyDict (pairs.flatMap fun p => p.1.map fun k => ([k], p.2)))

/-- `FeatureSet._parse_other`: an all-digit value becomes an int,
anything else stays a string. -/
def _parse_other (value : PyStr) : FeatureValue :=
  if value ≠ [] ∧ value.all (·.isDigit) then
    .num ((value.foldl (fun acc c => acc * 10 + (c.toNat - 48)) 0 : Nat))
  else .str value

/-- `FeatureSet.set`: `setattr(self, name.lower(), value)`. -/
def set (st : FeatureState) (name : PyStr) (value : FeatureValue) :
    FeatureState :=
  fdSet id st (pyLower name) value

/-- `FeatureSet.remove`: delete the attribute when present. -/
def remove (st : FeatureState) (feature_name : PyStr) : FeatureState :=
  if fdContains id st feature_name then fdErase id st feature_name else st

/-- `FeatureSet.load_feature`: `-name` removes; no `=` is ignored;
`name=` sets a bare flag; otherwise the named `_parse_*` staticmethod
(selected on the exact, case-sensitive name) or `_parse_other` parses
the value.  `feature[0]` on an empty string is an `IndexError`. -/
def load_feature (st : FeatureState) (feature : PyStr) :
    Except PyErr FeatureState :=
  match feature with
  | [] => .error .indexError
  | c :: _ =>
    if c = '-' then .ok (remove st (pyLower (feature.drop 1)))
    else
      match partitionOn feature ['='] with
      | (_, false, _) => .ok st
      | (name, true, value) =>
        if value = [] then .ok (set st name .flag)
        else do
          let v ←
            if name = "PREFIX".toList then _parse_PREFIX value
            else if name = "CHANMODES".toList then _parse_CHANMODES value
            else if name = "TARGMAX".toList then _parse_TARGMAX value
            else if name = "CHANLIMIT".toList then _parse_CHANLIMIT value
            else if name = "MAXLIST".toList then _parse_CHANLIMIT value
            else pure (_parse_other value)
          return set st name v

/-- Apply `load_feature` to each directive in order; on an exception the
features applied so far are kept and the exception is reported. -/
def loadFeatures (st : FeatureState) :
    List PyStr → FeatureState × Option PyErr
  | [] => (st, none)
  | f :: rest =>
    match load_feature st f with
    | .ok st' => loadFeatures st' rest
    | .error e => (st, some e)

/-- `FeatureSet.load`: apply the feature parser to `arguments[1:-1]`. -/
def load (st : FeatureState) (arguments : List PyStr) :
    FeatureState × Option PyErr :=
  loadFeatures st ((arguments.drop 1).dropLast)

/-- The initial feature state: RFC 1459 prefixes `@ -> o`, `+ -> v`. -/
def initial : FeatureState :=
  [("prefix".toList, .prefixMap [('@', 'o'), ('+', 'v')])]

end FeatureSet

/-- C10: `FeatureSet.load` hands exactly `arguments[1:-1]` to the
feature parser: for any argument list `first :: mid ++ [last]` the first
element (the target nickname) and the last element are never
interpreted, whatever they contain, and an argument list with fewer than
two elements yields no directives at all — so a featurelist line whose
final argument is a directive rather than trailing text has that
directive silently ignored. -/
theorem C10_featurelist_slice :
    (∀ (st : FeatureState) (first y : PyStr) (mid : List PyStr),
      FeatureSet.load st (first :: (mid ++ [y]))
        = FeatureSet.loadFeatures st mid)
    ∧ (∀ (st : FeatureState) (arguments : List PyStr),
        arguments.length ≤ 1 → FeatureSet.load st arguments = (st, none)) := by
  constructor
  · intro st first y mid
    unfold FeatureSet.load
    rw [List.drop_one, List.tail_cons, List.dropLast_concat]
  · intro st arguments hlen
    match arguments, hlen with
    | [], _ => rfl
    | [x], _ => rfl

/-- C10 (witness): a two-argument featurelist (`['alice',
'PREFIX=(ov)@+']`, i.e. no trailing text) loads nothing: its final
directive is ignored. -/
theorem C10_witness :
    FeatureSet.load FeatureSet.initial
        ["alice".toList, "PREFIX=(ov)@+".toList]
      = (FeatureSet.initial, none)
    ∧ ([("alice".toList : PyStr)].length ≤ 1
      ∧ FeatureSet.load FeatureSet.initial ["alice".toList]
          = (FeatureSet.initial, none)) :=
  ⟨C10_featurelist_slice.1 FeatureSet.initial _ _ [],
    by simp, C10_featurelist_slice.2 FeatureSet.initial _ (by simp)⟩

/-! ### `irc.buffer`: `LineBuffer`

`LineBuffer.lines` splits the buffered bytes with `re.split(b'\r?\n')`
and keeps the last (unterminated) part as the new buffer.  Every match
of `\r?\n` ends at a `\n` and greedily consumes an immediately preceding
`\r`, and every `\n` belongs to exactly one match; so the regex split
equals: split on `\n` (byte `10`), then strip one trailing `\r` (byte
`13`) from every part but the last, the last part being the residue. -/

/-- The head-merge used to describe how splitting distributes over
append: the left residue fuses with the first part on the right. -/
def mergeHead {α : Type} (r : List α) (parts : List (List α)) :
    List (List α) :=
  (r ++ parts.headI) :: parts.tail

theorem splitOnE_cons_sep {α : Type} [DecidableEq α] {sep a : α}
    (l : List α) (h : a = sep) :
    splitOnE sep (a :: l) = [] :: splitOnE sep l := by
  rw [splitOnE, if_pos h]

theorem splitOnE_cons_ne {α : Type} [DecidableEq α] {sep a : α}
    (l : List α) (h : a ≠ sep) :
    splitOnE sep (a :: l)
      = (a :: (splitOnE sep l).headI) :: (splitOnE sep l).tail := by
  rw [splitOnE, if_neg h]

theorem splitOnE_not_mem {α : Type} [DecidableEq α] (sep : α)
    (l : List α) : ∀ p ∈ splitOnE sep l, sep ∉ p := by
  induction l with
  | nil => intro p hp; simp [splitOnE] at hp; simp [hp]
  | cons a rest ih =>
    intro p hp
    by_cases ha : a = sep
    · rw [splitOnE_cons_sep rest ha] at hp
      rcases List.mem_cons.mp hp with rfl | hp
      · simp
      · exact ih p hp
    · rw [splitOnE_cons_ne rest ha] at hp
      rcases hs : splitOnE sep rest with _ | ⟨q, qs⟩
      · exact absurd hs (splitOnE_ne_nil sep rest)
      rw [hs] at hp
      rcases List.mem_cons.mp hp with rfl | hp
      · intro hmem
        rcases List.mem_cons.mp hmem with rfl | hmem
        · exact ha rfl
        · exact ih q (hs ▸ List.mem_cons_self _ _) (by simpa using hmem)
      · exact ih p (hs ▸ List.mem_cons_of_mem _ (by simpa using hp))

theorem splitOnE_noSep_append {α : Type} [DecidableEq α] (sep : α)
    (r b : List α) (h : sep ∉ r) :
    splitOnE sep (r ++ b) = mergeHead r (splitOnE sep b) := by
  induction r with
  | nil =>
    rcases hs : splitOnE sep b with _ | ⟨q, qs⟩
    · exact absurd hs (splitOnE_ne_nil sep b)
    · simp [mergeHead, hs]
  | cons c r' ih =>
    have hc : c ≠ sep := fun hcc => h (hcc ▸ List.mem_cons_self _ _)
    have hr' : sep ∉ r' := fun hm => h (List.mem_cons_of_mem _ hm)
    rw [List.cons_append, splitOnE_cons_ne _ hc, ih hr']
    rcases hs : splitOnE sep b with _ | ⟨q, qs⟩
    · exact absurd hs (splitOnE_ne_nil sep b)
    · simp [mergeHead, hs]

theorem splitOnE_append {α : Type} [DecidableEq α] (sep : α)
    (a b : List α) :
    splitOnE sep (a ++ b)
      = (splitOnE sep a).dropLast
        ++ mergeHead ((splitOnE sep a).getLastD []) (splitOnE sep b) := by
  induction a with
  | nil =>
    rcases hs : splitOnE sep b with _ | ⟨q, qs⟩
    · exact absurd hs (splitOnE_ne_nil sep b)
    · simp [splitOnE, mergeHead, hs]
  | cons c a' ih =>
    by_cases hc : c = sep
    · rw [List.cons_append, splitOnE_cons_sep _ hc, splitOnE_cons_sep _ hc,
        ih]
      rcases hs : splitOnE sep a' with _ | ⟨q, qs⟩
      · exact absurd hs (splitOnE_ne_nil sep a')
      · simp [hs]
    · rw [List.cons_append, splitOnE_cons_ne _ hc, splitOnE_cons_ne _ hc,
        ih]
      rcases hs : splitOnE sep a' with _ | ⟨q, qs⟩
      · exact absurd hs (splitOnE_ne_nil sep a')
      · cases qs with
        | nil => simp [hs, mergeHead]
        | cons q2 qs' => simp [hs, mergeHead]

theorem splitOnE_sum {α : Type} [DecidableEq α] (sep : α) (l : List α) :
    ((splitOnE sep l).map List.length).sum + ((splitOnE sep l).length - 1)
      = l.length := by
  induction l with
  | nil => simp [splitOnE]
  | cons a rest ih =>
    by_cases ha : a = sep
    · rw [splitOnE_cons_sep rest ha]
      have h1 : (splitOnE sep rest).length ≥ 1 :=
        Nat.one_le_iff_ne_zero.mpr
          (by simpa [List.length_eq_zero] using splitOnE_ne_nil sep rest)
      simp only [List.map_cons, List.sum_cons, List.length_cons,
        List.length_nil]
      omega
    · rw [splitOnE_cons_ne rest ha]
      rcases hs : splitOnE sep rest with _ | ⟨q, qs⟩
      · exact absurd hs (splitOnE_ne_nil sep rest)
      · rw [hs] at ih
        simp only [hs, List.headI, List.tail, List.map_cons, List.sum_cons,
          List.length_cons] at ih ⊢
        omega

/-- Strip one trailing CR: the optional `\r` consumed by the `\r?\n`
terminator. -/
def stripCR (l : Bytes) : Bytes :=
  if l.getLast? = some 13 then l.dropLast else l

namespace LineBuffer

/-- `LineBuffer.feed`: append the new bytes to the buffer. -/
def feed (st : Bytes) (bs : Bytes) : Bytes := st ++ bs

/-- `LineBuffer.lines` (fully drained): the complete lines, and the
trailing unterminated part which becomes the new buffer. -/
def lines (st : Bytes) : List Bytes × Bytes :=
  (((splitOnE 10 st).dropLast).map stripCR, (splitOnE 10 st).getLastD [])

/-- Ghost variant of `lines` that also records, per line, how many
terminator bytes (`1` for `\n`, `2` for `\r\n`) the line consumed. -/
def linesT (st : Bytes) : List (Bytes × Nat) × Bytes :=
  (((splitOnE 10 st).dropLast).map
      (fun seg => (stripCR seg, seg.length + 1 - (stripCR seg).length)),
    (splitOnE 10 st).getLastD [])

end LineBuffer

/-- An interaction with a `LineBuffer`: feed a chunk, or drain all
currently complete lines. -/
inductive BufOp : Type
  | feed (bs : Bytes)
  | drain

/-- Run a sequence of buffer operations from a given buffer state,
collecting every line emitted by the drains, with the final buffer. -/
def runOps (st : Bytes) : List BufOp → List Bytes × Bytes
  | [] => ([], st)
  | .feed bs :: ops => runOps (LineBuffer.feed st bs) ops
  | .drain :: ops =>
    ((LineBuffer.lines st).1 ++ (runOps (LineBuffer.lines st).2 ops).1,
      (runOps (LineBuffer.lines st).2 ops).2)

/-- `runOps` with the ghost terminator counts. -/
def runOpsT (st : Bytes) : List BufOp → List (Bytes × Nat) × Bytes
  | [] => ([], st)
  | .feed bs :: ops => runOpsT (LineBuffer.feed st bs) ops
  | .drain :: ops =>
    ((LineBuffer.linesT st).1 ++ (runOpsT (LineBuffer.linesT st).2 ops).1,
      (runOpsT (LineBuffer.linesT st).2 ops).2)

/-- The concatenation of every chunk fed by a sequence of operations. -/
def fedBytes : List BufOp → Bytes
  | [] => []
  | .feed bs :: ops => bs ++ fedBytes ops
  | .drain :: ops => fedBytes ops

theorem getLastD_append_of_ne_nil {α : Type} (l₁ l₂ : List α) {d : α}
    (h : l₂ ≠ []) : (l₁ ++ l₂).getLastD d = l₂.getLastD d := by
  rw [List.getLastD_eq_getLast?, List.getLastD_eq_getLast?,
    List.getLast?_append_of_ne_nil _ h]

/-- Draining distributes over feeding: the lines of `a ++ b` are the
lines of `a` followed by the lines of `a`'s residue fed with `b`, and
the residues agree. -/
theorem lines_append (a b : Bytes) :
    (LineBuffer.lines (a ++ b)).1
        = (LineBuffer.lines a).1
          ++ (LineBuffer.lines ((LineBuffer.lines a).2 ++ b)).1
    ∧ (LineBuffer.lines (a ++ b)).2
        = (LineBuffer.lines ((LineBuffer.lines a).2 ++ b)).2 := by
  have hresid : (10 : Nat) ∉ (splitOnE 10 a).getLastD [] := by
    rcases hs : splitOnE 10 a with _ | ⟨q, qs⟩
    · exact absurd hs (splitOnE_ne_nil 10 a)
    · have hmem : (q :: qs).getLast (by simp) ∈ splitOnE 10 a := by
        rw [hs]; exact List.getLast_mem _
      have hnm := splitOnE_not_mem 10 a _ hmem
      have heq : (q :: qs).getLastD []
          = (q :: qs).getLast (by simp) := by
        rw [List.getLastD_eq_getLast?, List.getLast?_eq_getLast _ (by simp)]
        rfl
      rw [heq]
      exact hnm
  have hb := splitOnE_noSep_append 10 ((splitOnE 10 a).getLastD []) b hresid
  have hab := splitOnE_append 10 a b
  have hmh : mergeHead ((splitOnE 10 a).getLastD []) (splitOnE 10 b) ≠ [] :=
    by simp [mergeHead]
  constructor
  · simp only [LineBuffer.lines]
    rw [hab, hb, List.dropLast_append_of_ne_nil _ hmh, List.map_append]
  · simp only [LineBuffer.lines]
    rw [hab, hb, getLastD_append_of_ne_nil _ _ hmh]

/-- `linesT` refines `lines`: same residue, and dropping the ghost
terminator counts recovers the lines. -/
theorem linesT_fst (st : Bytes) :
    (LineBuffer.linesT st).1.map Prod.fst = (LineBuffer.lines st).1
    ∧ (LineBuffer.linesT st).2 = (LineBuffer.lines st).2 := by
  constructor
  · simp [LineBuffer.linesT, LineBuffer.lines, List.map_map,
      Function.comp_def]
  · rfl

theorem stripCR_length_le (seg : Bytes) :
    (stripCR seg).length ≤ seg.length := by
  unfold stripCR
  split
  · simp [List.length_dropLast]
  · exact le_refl _

theorem sumTermAux (l : List Bytes) :
    ((l.map (fun seg =>
        (stripCR seg, seg.length + 1 - (stripCR seg).length))).map
      (fun p => p.1.length + p.2)).sum
      = (l.map List.length).sum + l.length := by
  induction l with
  | nil => rfl
  | cons x xs ihx =>
    have hx := stripCR_length_le x
    simp only [List.map_cons, List.sum_cons, List.length_cons]
    omega

theorem sum_dropLast_getLastD (l : List Bytes) (h : l ≠ []) :
    (l.dropLast.map List.length).sum + (l.getLastD []).length
      = (l.map List.length).sum := by
  conv_rhs => rw [← List.dropLast_append_getLast h]
  rw [List.map_append, List.sum_append]
  simp [List.getLastD_eq_getLast?, List.getLast?_eq_getLast _ h]

/-- Per-drain byte accounting: lines + terminators + residue = buffer. -/
theorem linesT_sum (st : Bytes) :
    ((LineBuffer.linesT st).1.map (fun p => p.1.length + p.2)).sum
        + (LineBuffer.linesT st).2.length = st.length := by
  have hsum := splitOnE_sum 10 st
  have hne := splitOnE_ne_nil 10 st
  unfold LineBuffer.linesT
  dsimp only
  rw [sumTermAux]
  have hdl := sum_dropLast_getLastD (splitOnE 10 st) hne
  have hdllen : (splitOnE 10 st).dropLast.length
      = (splitOnE 10 st).length - 1 := by simp [List.length_dropLast]
  omega

theorem runOps_correct (ops : List BufOp) :
    ∀ st : Bytes,
      (runOps st ops).1 ++ (LineBuffer.lines ((runOps st ops).2)).1
          = (LineBuffer.lines (st ++ fedBytes ops)).1
      ∧ (LineBuffer.lines ((runOps st ops).2)).2
          = (LineBuffer.lines (st ++ fedBytes ops)).2 := by
  induction ops with
  | nil => intro st; simp [runOps, fedBytes]
  | cons op ops ih =>
    intro st
    cases op with
    | feed bs =>
      simp only [runOps, fedBytes, LineBuffer.feed]
      rw [show st ++ (bs ++ fedBytes ops) = (st ++ bs) ++ fedBytes ops from
        (List.append_assoc _ _ _).symm]
      exact ih (st ++ bs)
    | drain =>
      have hib := ih (LineBuffer.lines st).2
      have hla := lines_append st (fedBytes ops)
      constructor
      · simp only [runOps, fedBytes]
        rw [List.append_assoc, hib.1, hla.1]
      · simp only [runOps, fedBytes]
        rw [hib.2, ← hla.2]

theorem runOpsT_fst (ops : List BufOp) :
    ∀ st : Bytes,
      (runOpsT st ops).1.map Prod.fst = (runOps st ops).1
      ∧ (runOpsT st ops).2 = (runOps st ops).2 := by
  induction ops with
  | nil => intro st; simp [runOpsT, runOps]
  | cons op ops ih =>
    intro st
    cases op with
    | feed bs => exact ih (LineBuffer.feed st bs)
    | drain =>
      have h1 := (linesT_fst st).1
      have hr : (LineBuffer.linesT st).2 = (LineBuffer.lines st).2 := rfl
      constructor
      · simp only [runOpsT, runOps, List.map_append, h1, hr]
        rw [(ih (LineBuffer.lines st).2).1]
      · simp only [runOpsT, runOps, hr]
        exact (ih (LineBuffer.lines st).2).2

theorem runOpsT_sum (ops : List BufOp) :
    ∀ st : Bytes,
      ((runOpsT st ops).1.map (fun p => p.1.length + p.2)).sum
          + (runOpsT st ops).2.length
        = st.length + (fedBytes ops).length := by
  induction ops with
  | nil => intro st; simp [runOpsT, fedBytes]
  | cons op ops ih =>
    intro st
    cases op with
    | feed bs =>
      have := ih (LineBuffer.feed st bs)
      simp only [runOpsT, fedBytes, LineBuffer.feed] at this ⊢
      simp only [List.length_append] at this ⊢
      omega
    | drain =>
      have hsum := linesT_sum st
      have hih := ih (LineBuffer.linesT st).2
      simp only [runOpsT, fedBytes, List.map_append, List.sum_append]
      omega

theorem linesT_term (st : Bytes) :
    ∀ p ∈ (LineBuffer.linesT st).1, p.2 = 1 ∨ p.2 = 2 := by
  intro p hp
  simp only [LineBuffer.linesT, List.mem_map] at hp
  obtain ⟨seg, _, rfl⟩ := hp
  by_cases h : seg.getLast? = some 13
  · right
    have hne : seg ≠ [] := by
      intro hnil; rw [hnil] at h; simp at h
    have hlen : 1 ≤ seg.length := by
      cases seg with
      | nil => exact absurd rfl hne
      | cons x xs => simp
    simp only [stripCR, if_pos h, List.length_dropLast]
    omega
  · left
    simp only [stripCR, if_neg h]
    omega

theorem runOpsT_term (ops : List BufOp) :
    ∀ (st : Bytes), ∀ p ∈ (runOpsT st ops).1, p.2 = 1 ∨ p.2 = 2 := by
  induction ops with
  | nil => intro st p hp; simp [runOpsT] at hp
  | cons op ops ih =>
    intro st p hp
    cases op with
    | feed bs => exact ih (LineBuffer.feed st bs) p hp
    | drain =>
      simp only [runOpsT, List.mem_append] at hp
      rcases hp with hp | hp
      · exact linesT_term st p hp
      · exact ih (LineBuffer.linesT st).2 p hp

/-- C7: feeding a byte string to `LineBuffer` in arbitrary chunks, with
drains at arbitrary points, yields the same line sequence and the same
residual buffer as feeding it all at once, and at every point the
emitted line bytes plus their terminator bytes (each terminator being 1
or 2 bytes) plus the residual buffer account for every byte fed. -/
theorem C7_linebuffer_roundtrip (ops : List BufOp) :
    ((runOps [] ops).1 ++ (LineBuffer.lines ((runOps [] ops).2)).1
        = (LineBuffer.lines (fedBytes ops)).1
      ∧ (LineBuffer.lines ((runOps [] ops).2)).2
        = (LineBuffer.lines (fedBytes ops)).2)
    ∧ ((runOpsT [] ops).1.map Prod.fst = (runOps [] ops).1
      ∧ ((runOpsT [] ops).1.map (fun p => p.1.length + p.2)).sum
            + (runOpsT [] ops).2.length = (fedBytes ops).length)
    ∧ (∀ p ∈ (runOpsT [] ops).1, p.2 = 1 ∨ p.2 = 2) := by
  refine ⟨⟨?_, ?_⟩, ⟨(runOpsT_fst ops []).1, ?_⟩, runOpsT_term ops []⟩
  · have h := (runOps_correct ops []).1
    simpa using h
  · have h := (runOps_correct ops []).2
    simpa using h
  · have h := runOpsT_sum ops []
    simpa using h

/-- C7 (witness): the round-trip theorem applied to the concrete
interaction of the `LineBuffer` docstring (`feed b"foo\nbar"`, drain,
`feed b"bar\r\nbaz\n"`, drain), with the membership hypothesis of the
terminator clause discharged on the line `b"foo"`. -/
theorem C7_witness :
    (runOps [] [BufOp.feed [102, 111, 111, 10, 98, 97], BufOp.drain,
        BufOp.feed [98, 97, 114, 13, 10, 98, 97, 122, 10], BufOp.drain]).1
      = [[102, 111, 111], [98, 97, 98, 97, 114], [98, 97, 122]]
    ∧ ([102, 111, 111], 1) ∈
        (runOpsT [] [BufOp.feed [102, 111, 111, 10, 98, 97], BufOp.drain,
          BufOp.feed [98, 97, 114, 13, 10, 98, 97, 122, 10],
          BufOp.drain]).1
    ∧ ((([102, 111, 111], 1) : Bytes × Nat).2 = 1
        ∨ (([102, 111, 111], 1) : Bytes × Nat).2 = 2) := by
  refine ⟨by decide, by decide, ?_⟩
  exact (C7_linebuffer_roundtrip
    [BufOp.feed [102, 111, 111, 10, 98, 97], BufOp.drain,
      BufOp.feed [98, 97, 114, 13, 10, 98, 97, 122, 10],
      BufOp.drain]).2.2 _ (by decide)

/-! ### `irc.client`: outbound framing (`_prep_message` / `send_raw`) -/

/-- The errors `send_raw` can raise. -/
inductive SendErr : Type
  | invalidCharacters
  | messageTooLong
  | notConnected
  deriving DecidableEq, Repr

/-- `ServerConnection._prep_message`: reject any `\n`, encode UTF-8 and
append CR LF, reject frames longer than 512 bytes. -/
def _prep_message (s : PyStr) : Except SendErr Bytes :=
  if '\n' ∈ s then .error .invalidCharacters
  else
    if (utf8Encode s ++ [13, 10]).length > 512 then .error .messageTooLong
    else .ok (utf8Encode s ++ [13, 10])

/-- `ServerConnection.send_raw`: fail with `NotConnected` when there is
no socket; otherwise write exactly the prepared frame, writing nothing
when `_prep_message` raises.  The socket is modelled by the byte list
written to it so far. -/
def send_raw (socket : Option Bytes) (s : PyStr) :
    Option Bytes × Option SendErr :=
  match socket with
  | none => (none, some .notConnected)
  | some w =>
    match _prep_message s with
    | .ok bytes => (some (w ++ bytes), none)
    | .error e => (some w, some e)

/-- Number of (possibly overlapping) occurrences of `pat` in `s`. -/
def countSub (s pat : Bytes) : Nat :=
  match s with
  | [] => if pat = [] then 1 else 0
  | _ :: rest =>
    (if s.take pat.length = pat then 1 else 0) + countSub rest pat

theorem char_eq_of_toNat_eq {a b : Char} (h : a.toNat = b.toNat) :
    a = b := by
  apply Char.ext
  exact UInt32.ext h

theorem utf8EncodeChar_no_lf {c : Char} (hc : c ≠ '\n') :
    10 ∉ utf8EncodeChar c := by
  intro hmem
  unfold utf8EncodeChar at hmem
  split_ifs at hmem with h1 h2 h3
  · simp at hmem
    exact hc (char_eq_of_toNat_eq
      (by rw [← hmem, show '\n'.toNat = 10 from rfl]))
  · simp at hmem
    rcases hmem with hmem | hmem <;> omega
  · simp at hmem
    rcases hmem with hmem | hmem | hmem <;> omega
  · simp at hmem
    rcases hmem with hmem | hmem | hmem | hmem <;> omega

theorem utf8Encode_no_lf {s : PyStr} (hs : '\n' ∉ s) :
    10 ∉ utf8Encode s := by
  intro hmem
  rcases List.mem_flatMap.mp hmem with ⟨c, hc, hcc⟩
  exact utf8EncodeChar_no_lf
    (fun hceq => hs (hceq ▸ hc)) hcc

theorem countSub_crlf_of_no_lf (u : Bytes) (h : 10 ∉ u) :
    countSub (u ++ [13, 10]) [13, 10] = 1 := by
  induction u with
  | nil => decide
  | cons b u' ih =>
    have hb : b ≠ 10 := fun hbe => h (hbe ▸ List.mem_cons_self _ _)
    have hu' : 10 ∉ u' := fun hm => h (List.mem_cons_of_mem _ hm)
    rw [List.cons_append, countSub]
    rw [ih hu']
    have hne : ¬ ((b :: (u' ++ [13, 10])).take 2 = [13, 10]) := by
      cases u' with
      | nil => simp
      | cons b2 u'' =>
        intro htake
        simp at htake
        exact hu' (by rw [htake.2]; exact List.mem_cons_self _ _)
    change (if (b :: (u' ++ [13, 10])).take 2 = [13, 10] then 1 else 0)
      + 1 = 1
    rw [if_neg hne]

/-- C1: while the socket is open, `send_raw s` (i) raises
`InvalidCharacters` and writes nothing when `s` contains `\n`; (ii)
raises `MessageTooLong` and writes nothing when the UTF-8 encoding of
`s` plus CR LF exceeds 512 bytes; (iii) otherwise writes exactly
`utf-8(s) + b"\r\n"`, so every accepted frame is at most 512 bytes and
ends in exactly one CR LF (its only occurrence of `b"\r\n"` is at the
end). -/
theorem C1_send_raw_framing (w : Bytes) (s : PyStr) :
    ('\n' ∈ s → send_raw (some w) s = (some w, some .invalidCharacters))
    ∧ ('\n' ∉ s → 512 < (utf8Encode s).length + 2 →
        send_raw (some w) s = (some w, some .messageTooLong))
    ∧ ('\n' ∉ s → (utf8Encode s).length + 2 ≤ 512 →
        send_raw (some w) s
            = (some (w ++ (utf8Encode s ++ [13, 10])), none)
        ∧ (utf8Encode s ++ [13, 10]).length ≤ 512
        ∧ [13, 10] <:+ (utf8Encode s ++ [13, 10])
        ∧ countSub (utf8Encode s ++ [13, 10]) [13, 10] = 1) := by
  refine ⟨?_, ?_, ?_⟩
  · intro hmem
    have hp : _prep_message s = .error .invalidCharacters := by
      unfold _prep_message
      rw [if_pos hmem]
    simp [send_raw, hp]
  · intro hmem hlen
    have hgt : (utf8Encode s ++ [13, 10]).length > 512 := by
      simp only [List.length_append]
      simpa using hlen
    have hp : _prep_message s = .error .messageTooLong := by
      unfold _prep_message
      rw [if_neg hmem, if_pos hgt]
    simp [send_raw, hp]
  · intro hmem hlen
    have hlen' : ¬ ((utf8Encode s ++ [13, 10]).length > 512) := by
      simp only [List.length_append]
      simp only [List.length_cons, List.length_nil]
      omega
    have hp : _prep_message s = .ok (utf8Encode s ++ [13, 10]) := by
      unfold _prep_message
      rw [if_neg hmem, if_neg hlen']
    refine ⟨by simp [send_raw, hp], ?_, ?_, ?_⟩
    · simp only [List.length_append]
      simpa using hlen
    · exact ⟨utf8Encode s, rfl⟩
    · exact countSub_crlf_of_no_lf _ (utf8Encode_no_lf hmem)

theorem utf8EncodeChar_a : utf8EncodeChar 'a' = [97] := by decide

theorem utf8Encode_replicate_a (n : Nat) :
    utf8Encode (List.replicate n 'a') = List.replicate n 97 := by
  induction n with
  | zero => rfl
  | succ n ihn =>
    simp only [List.replicate_succ, utf8Encode, List.flatMap_cons,
      utf8EncodeChar_a]
    rw [show (List.replicate n 'a').flatMap utf8EncodeChar
        = utf8Encode (List.replicate n 'a') from rfl, ihn]
    rfl

/-- C1 (witness): the three branches of `C1_send_raw_framing` exercised
on `"PRIVMSG #room :hello"`, on the same text with an embedded newline,
and on a 520-`a` payload. -/
theorem C1_witness :
    (('\n' ∈ ("PRIVMSG #room :hel\nlo".toList : PyStr))
      ∧ send_raw (some []) ("PRIVMSG #room :hel\nlo".toList)
          = (some [], some .invalidCharacters))
    ∧ (('\n' ∉ (List.replicate 520 'a' : PyStr))
      ∧ 512 < (utf8Encode (List.replicate 520 'a')).length + 2
      ∧ send_raw (some []) (List.replicate 520 'a')
          = (some [], some .messageTooLong))
    ∧ (('\n' ∉ ("PRIVMSG #room :hello".toList : PyStr))
      ∧ (utf8Encode ("PRIVMSG #room :hello".toList)).length + 2 ≤ 512
      ∧ send_raw (some []) ("PRIVMSG #room :hello".toList)
          = (some ([] ++ (utf8Encode ("PRIVMSG #room :hello".toList)
              ++ [13, 10])), none)) := by
  have hmem : '\n' ∉ (List.replicate 520 'a' : PyStr) := by
    simp [List.mem_replicate]
  have hlen : 512 < (utf8Encode (List.replicate 520 'a')).length + 2 := by
    rw [utf8Encode_replicate_a]
    simp
  refine ⟨⟨by decide, (C1_send_raw_framing [] _).1 (by decide)⟩,
    ⟨hmem, hlen, (C1_send_raw_framing [] _).2.1 hmem hlen⟩,
    ⟨by decide, by decide,
      ((C1_send_raw_framing [] _).2.2 (by decide) (by decide)).1⟩⟩

/-! ### `irc.bot`: `ExponentialBackoff` reconnect strategy -/

/-- Python `int()` applied to a rational: truncation toward zero. -/
def pyTrunc (q : ℚ) : ℤ :=
  if 0 ≤ q then ⌊q⌋ else -⌊-q⌋

/-- The state of an `ExponentialBackoff` strategy: the configured
bounds, whether a check is already scheduled, and the next value of the
`itertools.count(1)` attempt counter. -/
structure ExponentialBackoff : Type where
  min_interval : ℚ := 60
  max_interval : ℚ := 300
  _check_scheduled : Bool := false
  attempt : Nat := 1
  deriving DecidableEq, Repr

/-- `ExponentialBackoff.run`: when no check is scheduled, compute
`2 ** next(attempt_count) - 1`, clamp it to `max_interval` first, then
jitter (`int(intvl * random())`), then floor at `min_interval`, and
schedule the check after that many seconds (returned as `some delay`).
When a check is already scheduled, do nothing. -/
def ExponentialBackoff.run (st : ExponentialBackoff) (U : ℚ) :
    ExponentialBackoff × Option ℚ :=
  if st._check_scheduled then (st, none)
  else
    let intvl1 := (2 : ℚ) ^ st.attempt - 1
    let intvl2 := min intvl1 st.max_interval
    let intvl3 := (pyTrunc (intvl2 * U) : ℚ)
    let intvl4 := max intvl3 st.min_interval
    ({ st with attempt := st.attempt + 1, _check_scheduled := true },
      some intvl4)

/-- C3 (counterexample): at attempt `k = 9` with defaults
`min = 60`, `max = 300` and `U = 1/2`, the code schedules `150` —
`max(floor(min(2^9-1, 300) * 1/2), 60)` — while the claimed formula
`clamp(floor((2^9-1) * 1/2), 60, 300)` gives `255`: the code applies
the `max_interval` clamp to `2^k - 1` before jittering, not to the
jittered value. -/
theorem C3_counterexample :
    (ExponentialBackoff.run ⟨60, 300, false, 9⟩ (1/2)).2 = some 150
    ∧ min (max ((⌊((2 : ℚ) ^ 9 - 1) * (1/2)⌋ : ℚ)) 60) 300 = 255
    ∧ (some (150 : ℚ) ≠ some (255 : ℚ)) := by
  refine ⟨?_, ?_, by norm_num⟩
  · unfold ExponentialBackoff.run
    rw [if_neg (by simp)]
    have h1 : min ((2 : ℚ) ^ (9 : Nat) - 1) 300 = 300 := by norm_num
    have h2 : pyTrunc ((300 : ℚ) * (1/2)) = 150 := by
      unfold pyTrunc
      rw [if_pos (by norm_num)]
      norm_num
    simp only [h1, h2]
    norm_num
  · have : ⌊((2 : ℚ) ^ 9 - 1) * (1/2)⌋ = 255 := by
      refine Int.floor_eq_iff.mpr ?_; norm_num
    rw [this]
    norm_num

/-- C3 (amended): for a run with no check scheduled, the scheduled
delay at attempt `k` (the counter starts at 1) is
`max(min_interval, int(min(2^k - 1, max_interval) * U))` — the
`max_interval` clamp is applied to `2^k - 1` *before* the jitter —
`min_interval` (default 60) is a hard floor, and under the constructor's
assertion `0 ≤ min_interval ≤ max_interval` and `U ∈ [0,1)` the delay
never exceeds `max_interval` (default 300); the attempt counter
advances. -/
theorem C3_backoff_amended (st : ExponentialBackoff) (U : ℚ)
    (hsched : st._check_scheduled = false)
    (hmin : 0 ≤ st.min_interval) (hmm : st.min_interval ≤ st.max_interval)
    (hU0 : 0 ≤ U) (hU1 : U < 1) :
    (ExponentialBackoff.run st U).2
        = some (max ((pyTrunc (min ((2 : ℚ) ^ st.attempt - 1)
            st.max_interval * U) : ℚ)) st.min_interval)
    ∧ (∀ d : ℚ, (ExponentialBackoff.run st U).2 = some d →
        st.min_interval ≤ d ∧ d ≤ st.max_interval)
    ∧ (ExponentialBackoff.run st U).1.attempt = st.attempt + 1
    ∧ ({} : ExponentialBackoff).min_interval = 60
    ∧ ({} : ExponentialBackoff).max_interval = 300 := by
  have hrun : ExponentialBackoff.run st U
      = ({ st with attempt := st.attempt + 1, _check_scheduled := true },
        some (max ((pyTrunc (min ((2 : ℚ) ^ st.attempt - 1)
          st.max_interval * U) : ℚ)) st.min_interval)) := by
    unfold ExponentialBackoff.run
    rw [if_neg (by simp [hsched])]
  refine ⟨by rw [hrun], ?_, by rw [hrun], rfl, rfl⟩
  intro d hd
  rw [hrun] at hd
  rw [Option.some_inj] at hd
  subst hd
  constructor
  · exact le_max_right _ _
  · have hm0 : (0 : ℚ) ≤ min ((2 : ℚ) ^ st.attempt - 1) st.max_interval := by
      have h2 : (1 : ℚ) ≤ (2 : ℚ) ^ st.attempt := one_le_pow₀ (by norm_num)
      have := le_trans hmin hmm
      exact le_min (by linarith) this
    have hprod : min ((2 : ℚ) ^ st.attempt - 1) st.max_interval * U
        ≤ min ((2 : ℚ) ^ st.attempt - 1) st.max_interval := by
      calc min ((2 : ℚ) ^ st.attempt - 1) st.max_interval * U
          ≤ min ((2 : ℚ) ^ st.attempt - 1) st.max_interval * 1 :=
            mul_le_mul_of_nonneg_left (le_of_lt hU1) hm0
        _ = _ := mul_one _
    have htr : (pyTrunc (min ((2 : ℚ) ^ st.attempt - 1)
        st.max_interval * U) : ℚ)
        ≤ min ((2 : ℚ) ^ st.attempt - 1) st.max_interval := by
      unfold pyTrunc
      rw [if_pos (mul_nonneg hm0 hU0)]
      exact le_trans (Int.floor_le _) hprod
    have hle : (pyTrunc (min ((2 : ℚ) ^ st.attempt - 1)
        st.max_interval * U) : ℚ) ≤ st.max_interval :=
      le_trans htr (min_le_right _ _)
    exact max_le hle hmm

/-- C3 (witness): the amended theorem at the default configuration,
first attempt, `U = 0`: the scheduled delay is the floor `60`. -/
theorem C3_witness :
    (({} : ExponentialBackoff)._check_scheduled = false
      ∧ 0 ≤ ({} : ExponentialBackoff).min_interval
      ∧ ({} : ExponentialBackoff).min_interval
          ≤ ({} : ExponentialBackoff).max_interval
      ∧ (0 : ℚ) ≤ 0 ∧ (0 : ℚ) < 1)
    ∧ (ExponentialBackoff.run {} 0).2
        = some (max ((pyTrunc (min ((2 : ℚ) ^ (1 : Nat) - 1) 300 * 0) : ℚ))
            60) := by
  refine ⟨⟨rfl, by norm_num, by norm_num, le_refl 0, by norm_num⟩, ?_⟩
  exact (C3_backoff_amended {} 0 rfl (by norm_num) (by norm_num)
    (le_refl 0) (by norm_num)).1

/-! ### Association-dict lemmas (used by the channel tracker) -/

/-- Well-formedness of a folded-key dict: no two entries share a folded
key (true of every dict Python can build, since inserts merge). -/
def fdWF {κ ν : Type} (fold : κ → κ) (d : List (κ × ν)) : Prop :=
  d.Pairwise (fun a b => fold a.1 ≠ fold b.1)

theorem fdContains_fdSet_self {κ ν : Type} [DecidableEq κ]
    (fold : κ → κ) (d : List (κ × ν)) (k : κ) (v : ν) :
    fdContains fold (fdSet fold d k v) k = true := by
  induction d with
  | nil => simp [fdSet, fdContains]
  | cons e rest ih =>
    by_cases h : fold e.1 = fold k
    · simp [fdSet, fdContains, h]
    · rw [fdSet.eq_2, if_neg h]
      simpa [fdContains, h] using ih

theorem fdContains_fdSet_other {κ ν : Type} [DecidableEq κ]
    (fold : κ → κ) (d : List (κ × ν)) (k k' : κ) (v : ν)
    (h : fold k' ≠ fold k) :
    fdContains fold (fdSet fold d k v) k' = fdContains fold d k' := by
  induction d with
  | nil =>
    simp only [fdSet, fdContains, List.any_nil, List.any_cons, Bool.or_false]
    simp [Ne.symm h]
  | cons e rest ih =>
    by_cases he : fold e.1 = fold k
    · simp [fdSet, fdContains, he]
    · rw [fdSet.eq_2, if_neg he]
      simp only [fdContains, List.any_cons] at ih ⊢
      rw [ih]

theorem fdPop?_isSome_iff {κ ν : Type} [DecidableEq κ]
    (fold : κ → κ) (d : List (κ × ν)) (k : κ) :
    (fdPop? fold d k).isSome = fdContains fold d k := by
  induction d with
  | nil => simp [fdPop?, fdContains]
  | cons e rest ih =>
    by_cases h : fold e.1 = fold k
    · simp [fdPop?, fdContains, h]
    · rw [fdPop?.eq_2, if_neg h]
      simp only [fdContains, List.any_cons] at ih ⊢
      simp [h, Option.isSome_map, ih]

theorem fdPop?_mem_rest {κ ν : Type} [DecidableEq κ]
    (fold : κ → κ) (d : List (κ × ν)) (k : κ) (v : ν)
    (rest : List (κ × ν)) (h : fdPop? fold d k = some (v, rest)) :
    ∀ q ∈ rest, q ∈ d := by
  induction d generalizing v rest with
  | nil => simp [fdPop?] at h
  | cons e tl ih =>
    by_cases he : fold e.1 = fold k
    · rw [fdPop?.eq_2, if_pos he, Option.some_inj] at h
      injection h with h1 h2
      subst h2
      intro q hq
      exact List.mem_cons_of_mem _ hq
    · rw [fdPop?.eq_2, if_neg he] at h
      rcases hpop : fdPop? fold tl k with _ | ⟨⟨w, tl'⟩⟩
      · rw [hpop] at h; simp at h
      · rw [hpop] at h
        rw [show (some (w, tl')).map (fun r => (r.1, e :: r.2))
            = some (w, e :: tl') from rfl, Option.some_inj] at h
        injection h with h1 h2
        subst h2
        intro q hq
        rcases List.mem_cons.mp hq with rfl | hq
        · exact List.mem_cons_self _ _
        · exact List.mem_cons_of_mem _ (ih w tl' hpop q hq)

theorem fdPop?_rest {κ ν : Type} [DecidableEq κ]
    (fold : κ → κ) (d : List (κ × ν)) (k : κ) (v : ν)
    (rest : List (κ × ν)) (h : fdPop? fold d k = some (v, rest)) :
    (fdWF fold d → fdContains fold rest k = false)
    ∧ (∀ k', fold k' ≠ fold k →
        fdContains fold rest k' = fdContains fold d k')
    ∧ (fdWF fold d → fdWF fold rest) := by
  induction d generalizing v rest with
  | nil => simp [fdPop?] at h
  | cons e tl ih =>
    by_cases he : fold e.1 = fold k
    · rw [fdPop?.eq_2, if_pos he, Option.some_inj] at h
      injection h with h1 h2
      subst h2
      refine ⟨?_, ?_, ?_⟩
      · intro hwf
        rcases List.pairwise_cons.mp hwf with ⟨hhd, _⟩
        simp only [fdContains, List.any_eq_false]
        intro p hp
        simp only [decide_eq_true_eq]
        intro hpk
        exact hhd p hp (he.trans hpk.symm)
      · intro k' hk'
        simp only [fdContains, List.any_cons]
        have hdec : (decide (fold e.1 = fold k')) = false := by
          simp only [decide_eq_false_iff_not]
          intro hek'
          exact hk' (hek'.symm.trans he)
        rw [hdec]
        simp
      · intro hwf
        exact (List.pairwise_cons.mp hwf).2
    · rw [fdPop?.eq_2, if_neg he] at h
      rcases hpop : fdPop? fold tl k with _ | ⟨⟨w, tl'⟩⟩
      · rw [hpop] at h; simp at h
      · rw [hpop] at h
        rw [show (some (w, tl')).map (fun r => (r.1, e :: r.2))
            = some (w, e :: tl') from rfl, Option.some_inj] at h
        injection h with h1 h2
        subst h2
        have ihh := ih w tl' hpop
        refine ⟨?_, ?_, ?_⟩
        · intro hwf
          have hwf' := (List.pairwise_cons.mp hwf).2
          simp only [fdContains, List.any_cons, decide_eq_false he,
            Bool.false_or]
          exact ihh.1 hwf'
        · intro k' hk'
          have hih := ihh.2.1 k' hk'
          simp only [fdContains, List.any_cons] at hih ⊢
          rw [hih]
        · intro hwf
          rcases List.pairwise_cons.mp hwf with ⟨hhd, hwf'⟩
          refine List.pairwise_cons.mpr ⟨?_, ihh.2.2 hwf'⟩
          intro p hp
          exact hhd p (fdPop?_mem_rest fold tl k w tl' hpop p hp)

/-! ### `irc.bot`: the `Channel` record of the channel tracker

`Channel` keeps `_users` (an `IRCDict` of nicks), `mode_users` (a
`defaultdict` from user-mode letter to an `IRCDict` of nicks) and
`modes` (a plain dict of the remaining channel modes).  Dict keys may be
`None` (a user mode set with no argument), so keys are `Option PyStr`
and only string keys are folded, as in `IRCDict.key_transform`. -/

/-- A channel-dict key: a nick, or `None`. -/
abbrev ChanKey := Option PyStr

/-- `IRCDict.key_transform` on channel-dict keys: fold strings, leave
`None` alone. -/
def okFold (k : ChanKey) : ChanKey := k.map ircLower

/-- The `Channel` record. -/
structure ChannelB : Type where
  _users : List (ChanKey × Nat)
  mode_users : List (Char × List (ChanKey × Nat))
  modes : List (Char × ChanKey)
  deriving DecidableEq, Repr

namespace ChannelB

/-- `Channel.user_modes = 'ovqha'`. -/
def user_modes : PyStr := "ovqha".toList

/-- A freshly constructed channel. -/
def empty : ChannelB := ⟨[], [], []⟩

/-- `defaultdict` read access for the membership queries: the dict for
mode `m`, empty when absent. -/
def duGet (mu : List (Char × List (ChanKey × Nat))) (m : Char) :
    List (ChanKey × Nat) :=
  ((mu.find? fun p => p.1 = m).map (·.2)).getD []

/-- `defaultdict` item access followed by a mutation of the entry: the
entry (created empty when absent) is replaced by `f entry`. -/
def duApply (mu : List (Char × List (ChanKey × Nat))) (m : Char)
    (f : List (ChanKey × Nat) → List (ChanKey × Nat)) :
    List (Char × List (ChanKey × Nat)) :=
  match mu with
  | [] => [(m, f [])]
  | p :: rest =>
    if p.1 = m then (p.1, f p.2) :: rest else p :: duApply rest m f

/-- The per-dict move performed by `change_nick` on each `mode_users`
value: when `before` is present, pop it and store its value under
`after`. -/
def cnMove (before after : PyStr) (d : List (ChanKey × Nat)) :
    List (ChanKey × Nat) :=
  if fdContains okFold d (some before) then
    match fdPop? okFold d (some before) with
    | some r => fdSet okFold r.2 (some after) r.1
    | none => d
  else d

/-- `Channel.has_user`. -/
def has_user (ch : ChannelB) (nick : PyStr) : Bool :=
  fdContains okFold ch._users (some nick)

/-- Membership of a nick in `mode_users[m]`. -/
def in_mode_users (ch : ChannelB) (m : Char) (nick : PyStr) : Bool :=
  fdContains okFold (duGet ch.mode_users m) (some nick)

/-- `Channel.add_user`: `self._users[nick] = 1`. -/
def add_user (ch : ChannelB) (nick : PyStr) : ChannelB :=
  { ch with _users := fdSet okFold ch._users (some nick) 1 }

/-- `Channel.remove_user`: `pop(nick, None)` on `_users` and every
`mode_users` dict (`user_dicts`). -/
def remove_user (ch : ChannelB) (nick : PyStr) : ChannelB :=
  { ch with
    _users := fdErase okFold ch._users (some nick),
    mode_users := ch.mode_users.map fun p =>
      (p.1, fdErase okFold p.2 (some nick)) }

/-- `Channel.change_nick`: `self._users[after] = self._users.pop(before)`
(a `KeyError`, modelled as `none`, when `before` is absent), then for
every `mode_users` dict containing `before`, move its entry to `after`. -/
def change_nick (ch : ChannelB) (before after : PyStr) : Option ChannelB :=
  match fdPop? okFold ch._users (some before) with
  | none => none
  | some (v, rest) =>
    some
      { _users := fdSet okFold rest (some after) v,
        mode_users := ch.mode_users.map fun p =>
          (p.1, cnMove before after p.2),
        modes := ch.modes }

/-- `Channel.set_mode`: a user-mode letter records the (possibly
absent) nick in `mode_users[mode]`; any other letter records the value
in `modes`. -/
def set_mode (ch : ChannelB) (mode : Char) (value : ChanKey) : ChannelB :=
  if mode ∈ user_modes then
    { ch with mode_users :=
        (duApply ch.mode_users mode fun d => fdSet okFold d value 1) }
  else { ch with modes := fdSet id ch.modes mode value }

/-- `Channel.clear_mode`: deletion with `KeyError` swallowed; note the
`defaultdict` access still creates an empty `mode_users[mode]` entry. -/
def clear_mode (ch : ChannelB) (mode : Char) (value : ChanKey) : ChannelB :=
  if mode ∈ user_modes then
    { ch with mode_users :=
        (duApply ch.mode_users mode fun d => fdErase okFold d value) }
  else { ch with modes := fdErase id ch.modes mode }

/-- Well-formedness: each dict has pairwise-distinct folded keys (true
of every state reachable through the operations). -/
def WF (ch : ChannelB) : Prop :=
  fdWF okFold ch._users ∧ ∀ p ∈ ch.mode_users, fdWF okFold p.2

end ChannelB

theorem duGet_map (mu : List (Char × List (ChanKey × Nat))) (m : Char)
    (f : List (ChanKey × Nat) → List (ChanKey × Nat)) (hf : f [] = []) :
    ChannelB.duGet (mu.map fun p => (p.1, f p.2)) m
      = f (ChannelB.duGet mu m) := by
  induction mu with
  | nil => simp [ChannelB.duGet, hf]
  | cons p rest ih =>
    by_cases hp : p.1 = m
    · simp [ChannelB.duGet, List.find?, hp]
    · simp only [List.map_cons, ChannelB.duGet, List.find?] at ih ⊢
      rw [show (decide (p.1 = m)) = false by simp [hp]]
      exact ih

theorem duGet_wf (mu : List (Char × List (ChanKey × Nat))) (m : Char)
    (h : ∀ p ∈ mu, fdWF okFold p.2) :
    fdWF okFold (ChannelB.duGet mu m) := by
  unfold ChannelB.duGet
  rcases hf : mu.find? fun p => p.1 = m with _ | q
  · rw [hf]; simp [fdWF]
  · rw [hf]; simpa using h q (List.mem_of_find?_eq_some hf)
theorem fdContains_fdErase_self {κ ν : Type} [DecidableEq κ]
    (fold : κ → κ) (d : List (κ × ν)) (k : κ) (hwf : fdWF fold d) :
    fdContains fold (fdErase fold d k) k = false := by
  unfold fdErase
  rcases hpop : fdPop? fold d k with _ | ⟨⟨v, rest⟩⟩
  · have := fdPop?_isSome_iff fold d k
    rw [hpop] at this
    simpa using this.symm
  · exact (fdPop?_rest fold d k v rest hpop).1 hwf

theorem fdContains_fdErase_other {κ ν : Type} [DecidableEq κ]
    (fold : κ → κ) (d : List (κ × ν)) (k k' : κ)
    (h : fold k' ≠ fold k) :
    fdContains fold (fdErase fold d k) k' = fdContains fold d k' := by
  unfold fdErase
  rcases hpop : fdPop? fold d k with _ | ⟨⟨v, rest⟩⟩
  · rfl
  · exact (fdPop?_rest fold d k v rest hpop).2.1 k' h

theorem okFold_ne_of_fold_ne {a b : PyStr} (h : ircLower a ≠ ircLower b) :
    okFold (some a) ≠ okFold (some b) := by
  simp only [okFold, Option.map_some']
  intro he
  exact h (Option.some_inj.mp he)

/-- C4 (counterexample): on a fresh channel, `set_mode('o', 'bob')` puts
`bob` into `mode_users['o']` without adding it to `users` — the claimed
invariant "any nick present in some mode_users[m] is also present in
users" fails after a single `set_mode`. -/
theorem C4_counterexample :
    (ChannelB.set_mode ChannelB.empty 'o'
        (some ("bob".toList))).in_mode_users 'o' ("bob".toList) = true
    ∧ (ChannelB.set_mode ChannelB.empty 'o'
        (some ("bob".toList))).has_user ("bob".toList) = false := by
  constructor <;> decide

/-- C4 (amended): for well-formed channel states (no dict holds two
entries with the same folded key — true of all reachable states):
`remove_user(nick)` removes the nick from `users` and from every
`mode_users[m]` and touches no other nick; `change_nick(before, after)`
with `before` present moves `before`'s membership in `users` and in
every `mode_users[m]` that contained it over to `after`; and `add_user`
puts the nick into `users`.  (The claimed global invariant — membership
in some `mode_users[m]` implies membership in `users` — does not hold:
`set_mode` records the nick in `mode_users[m]` alone.) -/
theorem C4_channel_tracking_amended :
    (∀ (ch : ChannelB) (n : PyStr), ch.WF →
      (ch.remove_user n).has_user n = false
      ∧ (∀ m, (ch.remove_user n).in_mode_users m n = false)
      ∧ (∀ n', ircLower n' ≠ ircLower n →
          (ch.remove_user n).has_user n' = ch.has_user n'
          ∧ ∀ m, (ch.remove_user n).in_mode_users m n'
              = ch.in_mode_users m n'))
    ∧ (∀ (ch : ChannelB) (before after : PyStr), ch.WF →
        ch.has_user before = true →
        ∃ ch', ch.change_nick before after = some ch'
          ∧ ch'.has_user after = true
          ∧ (∀ m, ch.in_mode_users m before = true →
              ch'.in_mode_users m after = true)
          ∧ (ircLower after ≠ ircLower before →
              ch'.has_user before = false
              ∧ ∀ m, ch'.in_mode_users m before = false))
    ∧ (∀ (ch : ChannelB) (n : PyStr), (ch.add_user n).has_user n = true)
    := by
  refine ⟨?_, ?_, ?_⟩
  · intro ch n hwf
    have hf0 : fdErase okFold ([] : List (ChanKey × Nat)) (some n) = [] :=
      rfl
    refine ⟨?_, ?_, ?_⟩
    · exact fdContains_fdErase_self okFold ch._users (some n) hwf.1
    · intro m
      unfold ChannelB.in_mode_users ChannelB.remove_user
      dsimp only
      rw [duGet_map ch.mode_users m (fun d => fdErase okFold d (some n))
        hf0]
      exact fdContains_fdErase_self okFold _ (some n)
        (duGet_wf _ m hwf.2)
    · intro n' hn'
      have hne := okFold_ne_of_fold_ne hn'
      constructor
      · exact fdContains_fdErase_other okFold ch._users (some n)
          (some n') hne
      · intro m
        unfold ChannelB.in_mode_users ChannelB.remove_user
        dsimp only
        rw [duGet_map ch.mode_users m (fun d => fdErase okFold d (some n))
          hf0]
        exact fdContains_fdErase_other okFold _ (some n) (some n') hne
  · intro ch before after hwf hb
    unfold ChannelB.has_user at hb
    rcases hpop : fdPop? okFold ch._users (some before) with _ | ⟨⟨v, rest⟩⟩
    · exfalso
      have hiff := fdPop?_isSome_iff okFold ch._users (some before)
      rw [hpop, hb] at hiff
      simp at hiff
    · have hg0 : ChannelB.cnMove before after ([] : List (ChanKey × Nat))
          = [] := by
        simp [ChannelB.cnMove, fdContains]
      refine ⟨⟨fdSet okFold rest (some after) v,
          ch.mode_users.map fun p =>
            (p.1, ChannelB.cnMove before after p.2),
          ch.modes⟩,
        by unfold ChannelB.change_nick; rw [hpop], ?_, ?_, ?_⟩
      · exact fdContains_fdSet_self okFold rest (some after) v
      · intro m hbm
        unfold ChannelB.in_mode_users at hbm ⊢
        dsimp only
        rw [duGet_map ch.mode_users m (ChannelB.cnMove before after) hg0]
        unfold ChannelB.cnMove
        rw [if_pos hbm]
        rcases hpop2 : fdPop? okFold (ChannelB.duGet ch.mode_users m)
            (some before) with _ | ⟨⟨v2, rest2⟩⟩
        · exfalso
          have hiff := fdPop?_isSome_iff okFold
            (ChannelB.duGet ch.mode_users m) (some before)
          rw [hpop2, hbm] at hiff
          simp at hiff
        · exact fdContains_fdSet_self okFold rest2 (some after) v2
      · intro hab
        have hne := okFold_ne_of_fold_ne
          (show ircLower before ≠ ircLower after from fun he => hab he.symm)
        constructor
        · unfold ChannelB.has_user
          dsimp only
          rw [fdContains_fdSet_other okFold rest (some after) (some before)
            v hne]
          exact (fdPop?_rest okFold ch._users (some before) v rest hpop).1
            hwf.1
        · intro m
          unfold ChannelB.in_mode_users
          dsimp only
          rw [duGet_map ch.mode_users m (ChannelB.cnMove before after)
            hg0]
          unfold ChannelB.cnMove
          by_cases hbm : fdContains okFold (ChannelB.duGet ch.mode_users m)
              (some before) = true
          · rw [if_pos hbm]
            rcases hpop2 : fdPop? okFold
                (ChannelB.duGet ch.mode_users m) (some before)
              with _ | ⟨⟨v2, rest2⟩⟩
            · exfalso
              have hiff := fdPop?_isSome_iff okFold
                (ChannelB.duGet ch.mode_users m) (some before)
              rw [hpop2, hbm] at hiff
              simp at hiff
            · rw [fdContains_fdSet_other okFold rest2 (some after)
                (some before) v2 hne]
              exact (fdPop?_rest okFold _ (some before) v2 rest2 hpop2).1
                (duGet_wf _ m hwf.2)
          · rw [if_neg hbm]
            simpa using hbm
  · intro ch n
    exact fdContains_fdSet_self okFold ch._users (some n) 1
/-- A small concrete channel state: `Bob` added as a user and given
`+o`. -/
def sampleChannel : ChannelB :=
  (ChannelB.empty.add_user ("Bob".toList)).set_mode 'o'
    (some ("Bob".toList))

/-- C4 (witness): the amended theorem exercised on `sampleChannel`:
removing `Bob` empties `users`, and renaming `Bob` to `alice` transfers
membership. -/
theorem C4_witness :
    sampleChannel.WF
    ∧ (sampleChannel.remove_user ("Bob".toList)).has_user ("Bob".toList)
        = false
    ∧ sampleChannel.has_user ("Bob".toList) = true
    ∧ ∃ ch', sampleChannel.change_nick ("Bob".toList) ("alice".toList)
          = some ch'
        ∧ ch'.has_user ("alice".toList) = true
        ∧ (∀ m, sampleChannel.in_mode_users m ("Bob".toList) = true →
            ch'.in_mode_users m ("alice".toList) = true)
        ∧ (ircLower ("alice".toList) ≠ ircLower ("Bob".toList) →
            ch'.has_user ("Bob".toList) = false
            ∧ ∀ m, ch'.in_mode_users m ("Bob".toList) = false) := by
  have hwf : sampleChannel.WF := by
    constructor
    · unfold fdWF
      decide
    · intro p hp
      have hmu : sampleChannel.mode_users
          = [('o', [(some ("Bob".toList), 1)])] := by decide
      rw [hmu] at hp
      rcases List.mem_singleton.mp hp with rfl
      unfold fdWF
      decide
  exact ⟨hwf, (C4_channel_tracking_amended.1 sampleChannel _ hwf).1,
    by decide,
    C4_channel_tracking_amended.2.1 sampleChannel _ _ hwf (by decide)⟩

/-! ### `irc.client`: `Client` handler registration and dispatch

`Client._handle_event` snapshots `sorted(handlers["all_events"] +
handlers[event.type])` and queues it with the event;
`Client.process` pops queued events and calls the handlers in order,
returning as soon as a handler returns (exactly) `False`, which leaves
the remaining events queued for the next `process` call. -/

/-- A Python value returned by a handler callback, as far as the `is
False` test distinguishes them. -/
inductive PyRet : Type
  | pyFalse
  | pyTrue
  | pyNone
  | pyStr (s : PyStr)
  deriving DecidableEq, Repr

/-- A `PrioritizedHandler`: sorting and `bisect.insort` compare only
the priority.  The callback is modelled as a function of the event
(identified by a number). -/
structure HandlerM : Type where
  priority : Int
  callback : Nat → PyRet

/-- `bisect.insort` with `PrioritizedHandler.__lt__`: insert keeping
the list sorted by priority, after existing entries of equal
priority. -/
def insortRight (a : HandlerM) : List HandlerM → List HandlerM
  | [] => [a]
  | b :: rest =>
    if a.priority < b.priority then a :: b :: rest
    else b :: insortRight a rest

/-- Python's stable `sorted` by priority, as a stable insertion sort:
each element is placed before the first strictly-greater one, keeping
equal-priority elements in their original order. -/
def insertStable (a : HandlerM) : List HandlerM → List HandlerM
  | [] => [a]
  | b :: rest =>
    if b.priority < a.priority then b :: insertStable a rest
    else a :: b :: rest

/-- `sorted(l)` (stable, by priority only). -/
def pySorted (l : List HandlerM) : List HandlerM :=
  l.foldr insertStable []

/-- The handler map `Client.handlers`: event type to handler list. -/
abbrev HandlersMap := List (PyStr × List HandlerM)

/-- Handlers registered for an event type (`handlers.get(type, [])`). -/
def hmGet (hmap : HandlersMap) (event : PyStr) : List HandlerM :=
  ((hmap.find? fun p => p.1 = event).map (·.2)).getD []

/-- `Client.add_global_handler`: `bisect.insort` into
`handlers.setdefault(event, [])`. -/
def add_global_handler (hmap : HandlersMap) (event : PyStr)
    (h : HandlerM) : HandlersMap :=
  match hmap with
  | [] => [(event, [h])]
  | (k, l) :: rest =>
    if k = event then (k, insortRight h l) :: rest
    else (k, l) :: add_global_handler rest event h

/-- The sorted snapshot `Client._handle_event` queues for an event of
the given type. -/
def matchingHandlers (hmap : HandlersMap) (evType : PyStr) :
    List HandlerM :=
  pySorted (hmGet hmap ("all_events".toList) ++ hmGet hmap evType)

/-- The handlers `Client.process` actually invokes for one queued
event: every handler up to and including the first returning `False`. -/
def invokedCallbacks (evId : Nat) : List HandlerM → List HandlerM
  | [] => []
  | h :: rest =>
    h :: (if h.callback evId = .pyFalse then []
          else invokedCallbacks evId rest)

/-- Whether dispatching the event halts at a `False` return. -/
def dispatchHalts (evId : Nat) (hs : List HandlerM) : Bool :=
  (invokedCallbacks evId hs).any fun h => h.callback evId = .pyFalse

/-- One `Client.process` call on a non-empty queue: consume events and
invoke their handlers until one returns `False` (the remaining events
stay queued). -/
def processOnce :
    List (Nat × List HandlerM) →
      List (Nat × List HandlerM) × List (Nat × List HandlerM)
  | [] => ([], [])
  | (ev, hs) :: rest =>
    if dispatchHalts ev hs then ([(ev, invokedCallbacks ev hs)], rest)
    else ((ev, invokedCallbacks ev hs) :: (processOnce rest).1,
      (processOnce rest).2)

theorem processOnce_remaining_le (q : List (Nat × List HandlerM)) :
    (processOnce q).2.length ≤ q.length - 1 := by
  induction q with
  | nil => simp [processOnce]
  | cons e rest ih =>
    rcases e with ⟨ev, hs⟩
    rw [processOnce.eq_2]
    split
    · simp
    · simp only [List.length_cons]
      omega

/-- Repeated `process` calls until the queue is empty. -/
def processAll : List (Nat × List HandlerM) → List (Nat × List HandlerM)
  | [] => []
  | e :: rest =>
    (processOnce (e :: rest)).1 ++ processAll (processOnce (e :: rest)).2
termination_by q => q.length
decreasing_by
  have := processOnce_remaining_le (e :: rest)
  simp only [List.length_cons] at this ⊢
  omega

theorem mem_insertStable {y a : HandlerM} {l : List HandlerM} :
    y ∈ insertStable a l ↔ y = a ∨ y ∈ l := by
  induction l with
  | nil => simp [insertStable]
  | cons b rest ih =>
    rw [insertStable]
    split
    · rw [List.mem_cons, ih, List.mem_cons]
      tauto
    · rw [List.mem_cons, List.mem_cons]

theorem insertStable_sorted (a : HandlerM) (l : List HandlerM)
    (h : l.Pairwise fun x y => x.priority ≤ y.priority) :
    (insertStable a l).Pairwise fun x y => x.priority ≤ y.priority := by
  induction l with
  | nil => simp [insertStable]
  | cons b rest ih =>
    rcases List.pairwise_cons.mp h with ⟨hb, hrest⟩
    by_cases hlt : b.priority < a.priority
    · rw [insertStable, if_pos hlt]
      refine List.pairwise_cons.mpr ⟨?_, ih hrest⟩
      intro y hy
      rcases mem_insertStable.mp hy with rfl | hy
      · omega
      · exact hb y hy
    · rw [insertStable, if_neg hlt]
      refine List.pairwise_cons.mpr ⟨?_, h⟩
      intro y hy
      rcases List.mem_cons.mp hy with rfl | hy
      · omega
      · have := hb y hy
        omega

theorem filter_insertStable (pr : Int) (a : HandlerM)
    (l : List HandlerM) :
    (insertStable a l).filter (fun h => h.priority = pr)
      = ((a :: l).filter fun h => h.priority = pr) := by
  induction l with
  | nil => rfl
  | cons b rest ih =>
    by_cases hlt : b.priority < a.priority
    · rw [insertStable, if_pos hlt]
      by_cases hbp : b.priority = pr
      · have hap : ¬ (a.priority = pr) := by omega
        simp [List.filter_cons, hbp, hap, ih]
      · simp [List.filter_cons, hbp, ih]
    · rw [insertStable, if_neg hlt]

theorem filter_pySorted (pr : Int) (l : List HandlerM) :
    (pySorted l).filter (fun h => h.priority = pr)
      = (l.filter fun h => h.priority = pr) := by
  induction l with
  | nil => rfl
  | cons a rest ih =>
    show (insertStable a (pySorted rest)).filter _ = _
    rw [filter_insertStable]
    simp [List.filter_cons, ih]

theorem pySorted_sorted (l : List HandlerM) :
    (pySorted l).Pairwise fun x y => x.priority ≤ y.priority := by
  induction l with
  | nil => simp [pySorted]
  | cons a rest ih => exact insertStable_sorted a (pySorted rest) ih

theorem invokedCallbacks_no_false (evId : Nat) (hs : List HandlerM)
    (h : ∀ g ∈ hs, g.callback evId ≠ .pyFalse) :
    invokedCallbacks evId hs = hs := by
  induction hs with
  | nil => rfl
  | cons g rest ih =>
    rw [invokedCallbacks,
      if_neg (h g (List.mem_cons_self _ _)),
      ih fun g' hg' => h g' (List.mem_cons_of_mem _ hg')]

theorem invokedCallbacks_halt (evId : Nat) (pre : List HandlerM)
    (h : HandlerM) (post : List HandlerM)
    (hpre : ∀ g ∈ pre, g.callback evId ≠ .pyFalse)
    (hh : h.callback evId = .pyFalse) :
    invokedCallbacks evId (pre ++ h :: post) = pre ++ [h] := by
  induction pre with
  | nil => simp [invokedCallbacks, hh]
  | cons g rest ih =>
    rw [List.cons_append, invokedCallbacks,
      if_neg (hpre g (List.mem_cons_self _ _)),
      ih fun g' hg' => hpre g' (List.mem_cons_of_mem _ hg')]
    rfl

theorem processAll_aux (rest : List (Nat × List HandlerM)) :
    (processOnce rest).1 ++ processAll (processOnce rest).2
      = processAll rest := by
  cases rest with
  | nil => simp [processOnce, processAll]
  | cons e rest' => rw [processAll]

theorem processAll_eq (q : List (Nat × List HandlerM)) :
    processAll q = q.map fun e => (e.1, invokedCallbacks e.1 e.2) := by
  induction q with
  | nil => simp [processAll]
  | cons e rest ih =>
    rcases e with ⟨ev, hs⟩
    rw [processAll]
    by_cases hh : dispatchHalts ev hs
    · rw [processOnce.eq_2, if_pos hh]
      dsimp only
      simp [ih]
    · rw [processOnce.eq_2, if_neg hh]
      dsimp only
      rw [List.cons_append, processAll_aux rest, ih]
      rfl

/-- C5 (counterexample): a handler returning the string `'NO MORE'`
does not halt dispatch — `Client.process` halts only on a literal
`False` (`result is False`): with a priority-0 handler returning
`'NO MORE'` and a priority-1 handler after it, both are invoked. -/
theorem C5_counterexample :
    (⟨0, fun _ => PyRet.pyStr ("NO MORE".toList)⟩ : HandlerM).callback 0
        = PyRet.pyStr ("NO MORE".toList)
    ∧ (invokedCallbacks 0
        [⟨0, fun _ => PyRet.pyStr ("NO MORE".toList)⟩,
          ⟨1, fun _ => PyRet.pyNone⟩]).map (·.priority) = [0, 1] :=
  ⟨rfl, rfl⟩

/-- C5 (amended): the handler list queued for a dispatched event is the
concatenation of the `all_events` handlers and the handlers for
`event.type`, stably sorted ascending by priority (sorted, and for each
priority the handlers of that priority appear exactly as in the
concatenation); when an invoked handler returns the halt sentinel — the
boolean `False`, not `'NO MORE'` — no later handler is invoked for that
event, handlers before the sentinel all run, events with no `False`
return run every queued handler, and repeated `process` calls dispatch
every queued event exactly once with its own snapshot, so the halt of
one event does not affect which handlers other events receive. -/
theorem C5_dispatch_amended :
    (∀ (hmap : HandlersMap) (evType : PyStr),
      (matchingHandlers hmap evType).Pairwise
          (fun a b => a.priority ≤ b.priority)
      ∧ ∀ pr : Int,
          (matchingHandlers hmap evType).filter
              (fun h => h.priority = pr)
            = ((hmGet hmap ("all_events".toList) ++ hmGet hmap evType).filter
                fun h => h.priority = pr))
    ∧ (∀ (evId : Nat) (pre : List HandlerM) (h : HandlerM)
        (post : List HandlerM),
        (∀ g ∈ pre, g.callback evId ≠ .pyFalse) →
        h.callback evId = .pyFalse →
        invokedCallbacks evId (pre ++ h :: post) = pre ++ [h])
    ∧ (∀ (evId : Nat) (hs : List HandlerM),
        (∀ g ∈ hs, g.callback evId ≠ .pyFalse) →
        invokedCallbacks evId hs = hs)
    ∧ (∀ q : List (Nat × List HandlerM),
        processAll q = q.map fun e => (e.1, invokedCallbacks e.1 e.2)) := by
  refine ⟨fun hmap evType => ⟨pySorted_sorted _, fun pr => ?_⟩,
    invokedCallbacks_halt, invokedCallbacks_no_false, processAll_eq⟩
  exact filter_pySorted pr _

/-- C5 (witness): the halting clause of `C5_dispatch_amended` applied
at a concrete handler list — a priority-0 handler returning `None`,
then a priority-1 handler returning `False`, then a priority-2 handler:
exactly the first two run. -/
theorem C5_witness :
    (∀ g ∈ [(⟨0, fun _ => PyRet.pyNone⟩ : HandlerM)],
      g.callback 0 ≠ PyRet.pyFalse)
    ∧ (⟨1, fun _ => PyRet.pyFalse⟩ : HandlerM).callback 0 = PyRet.pyFalse
    ∧ invokedCallbacks 0
        ([⟨0, fun _ => PyRet.pyNone⟩]
          ++ (⟨1, fun _ => PyRet.pyFalse⟩ : HandlerM)
            :: [⟨2, fun _ => PyRet.pyNone⟩])
      = [⟨0, fun _ => PyRet.pyNone⟩] ++ [⟨1, fun _ => PyRet.pyFalse⟩] := by
  have hpre : ∀ g ∈ [(⟨0, fun _ => PyRet.pyNone⟩ : HandlerM)],
      g.callback 0 ≠ PyRet.pyFalse := by
    intro g hg
    rcases List.mem_singleton.mp hg with rfl
    simp
  exact ⟨hpre, rfl,
    C5_dispatch_amended.2.1 0 [⟨0, fun _ => PyRet.pyNone⟩]
      ⟨1, fun _ => PyRet.pyFalse⟩ [⟨2, fun _ => PyRet.pyNone⟩] hpre rfl⟩

/-! ### `ServerConnection` receive path: `process_data` and
`_process_line`

The variant's `process_data` reads from the socket one byte at a time
(`reader(1)`) while the buffer is shorter than 600 bytes and holds no
newline, breaking early when `select` reports no further data; the
socket is modelled as the list of bytes the peer has sent and not yet
been read (`_check_if_data_available` is true exactly while that list is
non-empty), and a read on an exhausted list models the peer closing the
connection (`recv` returning `b""`). -/

/-- Strict UTF-8 decoding (`bytes.decode("utf-8")`): `none` on any
ill-formed sequence (overlong forms, surrogates, out-of-range values,
truncated sequences), as in CPython. -/
def utf8Decode : Bytes → Option PyStr
  | [] => some []
  | b :: rest =>
    if b < 0x80 then
      (utf8Decode rest).map (fun s => Char.ofNat b :: s)
    else if 0xC2 ≤ b ∧ b ≤ 0xDF then
      match rest with
      | b2 :: r =>
        if 0x80 ≤ b2 ∧ b2 ≤ 0xBF then
          (utf8Decode r).map
            (fun s => Char.ofNat ((b - 0xC0) * 64 + (b2 - 0x80)) :: s)
        else none
      | [] => none
    else if 0xE0 ≤ b ∧ b ≤ 0xEF then
      match rest with
      | b2 :: b3 :: r =>
        if (0x80 ≤ b2 ∧ b2 ≤ 0xBF) ∧
            (b = 0xE0 → 0xA0 ≤ b2) ∧ (b = 0xED → b2 ≤ 0x9F) ∧
            (0x80 ≤ b3 ∧ b3 ≤ 0xBF) then
          (utf8Decode r).map (fun s =>
            Char.ofNat ((b - 0xE0) * 4096 + (b2 - 0x80) * 64 + (b3 - 0x80))
              :: s)
        else none
      | _ => none
    else if 0xF0 ≤ b ∧ b ≤ 0xF4 then
      match rest with
      | b2 :: b3 :: b4 :: r =>
        if (0x80 ≤ b2 ∧ b2 ≤ 0xBF) ∧
            (b = 0xF0 → 0x90 ≤ b2) ∧ (b = 0xF4 → b2 ≤ 0x8F) ∧
            (0x80 ≤ b3 ∧ b3 ≤ 0xBF) ∧ (0x80 ≤ b4 ∧ b4 ≤ 0xBF) then
          (utf8Decode r).map (fun s =>
            Char.ofNat ((b - 0xF0) * 262144 + (b2 - 0x80) * 4096 +
              (b3 - 0x80) * 64 + (b4 - 0x80)) :: s)
        else none
      | _ => none
    else none

/-- Latin-1 decoding (`bytes.decode("latin-1")`): byte value to code
point; it never fails, so the code's final `"replace"` fallback is
unreachable. -/
def latin1Decode (bs : Bytes) : PyStr := bs.map (fun b => Char.ofNat (b % 256))

/-- Decoding of one received line: UTF-8 preferred, Latin-1 on a
`UnicodeDecodeError`. -/
def decodeLine (bs : Bytes) : PyStr :=
  (utf8Decode bs).getD (latin1Decode bs)

/-- Index of the first `\n` byte (`buffer.find(b"\n")`), as length of the
newline-free head when absent. -/
def nlIdx : Bytes → Nat
  | [] => 0
  | b :: rest => if b = 10 then 0 else nlIdx rest + 1

/-- The byte-read loop of `ServerConnection.process_data`: while the
buffer is shorter than 600 bytes and newline-free, read one byte;
a read from an exhausted stream means the peer hung up (third component
`true`); after each byte, stop when no more data is available.  Returns
the new buffer, the unread remainder of the stream, and the
hung-up flag. -/
def readLoop : Bytes → Bytes → Bytes × Bytes × Bool
  | buf, [] =>
    if buf.length < 600 ∧ 10 ∉ buf then (buf, [], true) else (buf, [], false)
  | buf, b :: rest =>
    if buf.length < 600 ∧ 10 ∉ buf then
      if rest.isEmpty then (buf ++ [b], rest, false)
      else readLoop (buf ++ [b]) rest
    else (buf, b :: rest, false)

/-- How many bytes the read loop consumes: none when the buffer is
already full or holds a newline, otherwise one byte at a time up to the
available data, the 600-byte cap, or one past the first newline,
whichever comes first. -/
def readStop (buf stream : Bytes) : Nat :=
  if buf.length < 600 ∧ 10 ∉ buf then
    min stream.length (min (600 - buf.length) (nlIdx stream + 1))
  else 0

/-- An IRCv3 message tag as parsed by `message.Tag.parse`. -/
structure Tag : Type where
  key : PyStr
  value : Option PyStr
  deriving DecidableEq, Repr

/-- `client.Event`: `arguments`/`tags` of `None` become `[]` in
`Event.__init__`. -/
structure Event : Type where
  type : PyStr
  source : Option PyStr
  target : Option PyStr
  arguments : List PyStr
  tags : List Tag
  deriving DecidableEq, Repr

/-- `ServerConnection.Channel` (the variant's nested class): known
users (`None` until the first NAMES list completes), topic, the NAMES
list being accumulated, and the delayed `join` event with its arrival
time. -/
structure SCChannel : Type where
  name : PyStr
  users : Option (List PyStr)
  topic : Option PyStr
  names_tmp : List PyStr
  delayed_join_event : Option Event
  delayed_join_event_time : ℚ
  deriving DecidableEq, Repr

/-- `ServerConnection.Channel.__init__(name)` at time `now`. -/
def SCChannel.make (name : PyStr) (now : ℚ) : SCChannel :=
  { name := name, users := none, topic := none, names_tmp := [],
    delayed_join_event := none, delayed_join_event_time := now }

/-- `ServerConnection.Channel._should_trigger_delayed_join_event`. -/
def SCChannel.should_trigger (ch : SCChannel) (now : ℚ) : Bool :=
  if ch.delayed_join_event.isNone then false
  else (ch.topic.isSome ∧ ch.users.isSome) ∨
    ch.delayed_join_event_time + 20 < now

/-- The mutable attributes of a `ServerConnection` touched by the
receive path (the byte buffer is threaded separately, alongside the
modelled socket). -/
structure SCState : Type where
  server : PyStr
  connected : Bool
  real_nickname : PyStr
  real_server_name : PyStr
  features : FeatureState
  channels : List (PyStr × SCChannel)
  delayed_001 : Bool
  delayed_001_event : Option Event
  delayed_001_time : ℚ
  delayed_001_saw_004 : Bool
  welcome_triggered : Bool
  deriving DecidableEq, Repr

/-- A freshly connected `ServerConnection` (the fields as `__init__` and
`_do_connect` leave them). -/
def scInitial : SCState :=
  { server := "irc.example.net".toList, connected := true,
    real_nickname := "alice".toList, real_server_name := [],
    features := FeatureSet.initial, channels := [],
    delayed_001 := false, delayed_001_event := none, delayed_001_time := 0,
    delayed_001_saw_004 := false, welcome_triggered := false }

/-- A receive-path computation: connection state in, outcome (or the
Python exception escaping `_process_line`), new state, and the events
handed to `_handle_event`, in order. -/
def ProcM (α : Type) : Type :=
  SCState → Except PyErr α × SCState × List Event

/-- Sequencing: traces concatenate; an exception stops the rest but
keeps the state changes and events produced so far. -/
def ProcM.bind {α β : Type} (x : ProcM α) (f : α → ProcM β) : ProcM β :=
  fun st =>
    let p := x st
    match p.1 with
    | .ok a =>
      let q := f a p.2.1
      (q.1, q.2.1, p.2.2 ++ q.2.2)
    | .error e => (.error e, p.2.1, p.2.2)

/-- A pure value: no state change, no events. -/
def ProcM.pure {α : Type} (a : α) : ProcM α := fun st => (.ok a, st, [])

instance : Monad ProcM where
  pure := ProcM.pure
  bind := ProcM.bind

/-- Read the connection state (`self`). -/
def getSt : ProcM SCState := fun st => (.ok st, st, [])

/-- Replace the connection state (attribute assignment). -/
def setSt (s : SCState) : ProcM Unit := fun _ => (.ok (), s, [])

/-- `self._handle_event(e)`: hand the event to the owning client. -/
def emitEv (e : Event) : ProcM Unit := fun st => (.ok (), st, [e])

/-- Raise a Python exception. -/
def pyRaise {α : Type} (e : PyErr) : ProcM α := fun st => (.error e, st, [])

theorem getSt_bind {α : Type} (f : SCState → ProcM α) (st : SCState) :
    (getSt >>= f) st = f st st := by
  show ProcM.bind getSt f st = f st st
  unfold ProcM.bind getSt
  simp

theorem emit_bind_trace {α : Type} (e : Event) (f : Unit → ProcM α)
    (st : SCState) :
    ((emitEv e >>= f) st).2.2 = e :: (f () st).2.2 := by
  show (ProcM.bind (emitEv e) f st).2.2 = _
  unfold ProcM.bind emitEv
  simp

/-! #### The `_rfc_1459_command_regexp` match

`^(@(?P<tags>[^ ]*) )?(:(?P<prefix>[^ ]+) +)?(?P<command>[^ ]+)( *(?P<argument> .+))?`
matched against the start of the line.  `[^ ]` classes stop at the first
space; the optional groups backtrack to absence when what follows them
cannot match, and `.` never matches a newline. -/

/-- The `(@(?P<tags>[^ ]*) )?` part: at `@`, the (possibly empty) run of
non-spaces, which must be followed by a literal space.  Returns the tags
group and the rest of the line. -/
def matchTagsPart : PyStr → Option (PyStr × PyStr)
  | [] => none
  | c :: rest =>
    if c = '@' then
      let r := rest.dropWhile (fun x => decide (x ≠ ' '))
      if r.isEmpty then none
      else some (rest.takeWhile (fun x => decide (x ≠ ' ')), r.tail)
    else none

/-- The `(:(?P<prefix>[^ ]+) +)?` part: at `:`, a non-empty run of
non-spaces followed by at least one space; the greedy ` +` swallows the
whole space run. -/
def matchPrefixPart : PyStr → Option (PyStr × PyStr)
  | [] => none
  | c :: rest =>
    if c = ':' then
      let pg := rest.takeWhile (fun x => decide (x ≠ ' '))
      let r := rest.dropWhile (fun x => decide (x ≠ ' '))
      if pg.isEmpty ∨ r.isEmpty then none
      else some (pg, r.dropWhile (fun x => decide (x = ' ')))
    else none

/-- The `( *(?P<argument> .+))?` part, applied to what follows the
command token (a run of spaces, possibly empty, then the rest): the
group is a single space followed by at least one `.`-matchable
character; with backtracking this is a space plus everything up to the
line end (or a stray `\n`), and two spaces when only spaces remain
before it. -/
def matchArgumentPart (rest : PyStr) : Option PyStr :=
  let sp := (rest.takeWhile (fun c => decide (c = ' '))).length
  let tl := rest.dropWhile (fun c => decide (c = ' '))
  let body := tl.takeWhile (fun c => decide (c ≠ '\n'))
  if ¬body.isEmpty then some (' ' :: body)
  else if 2 ≤ sp then some [' ', ' ']
  else none

/-- The `(?P<command>[^ ]+)` part and the argument group after it. -/
def matchCommandArg (s : PyStr) : Option (PyStr × Option PyStr) :=
  let cmd := s.takeWhile (fun c => decide (c ≠ ' '))
  if cmd.isEmpty then none
  else some (cmd, matchArgumentPart (s.dropWhile (fun c => decide (c ≠ ' '))))

/-- The match groups `(tags, prefix, command, argument)`. -/
abbrev IrcGroups : Type := Option PyStr × Option PyStr × PyStr × Option PyStr

/-- Matching after the tags decision: prefix present if its group and a
command then match, else prefix absent. -/
def matchAfterTags (tags : Option PyStr) (s : PyStr) : Option IrcGroups :=
  match matchPrefixPart s with
  | some (pg, rest) =>
    match matchCommandArg rest with
    | some (cmd, arg) => some (tags, some pg, cmd, arg)
    | none =>
      (matchCommandArg s).map (fun p => (tags, none, p.1, p.2))
  | none =>
    (matchCommandArg s).map (fun p => (tags, none, p.1, p.2))

/-- `_rfc_1459_command_regexp.match(line)`: `none` when the regex does
not match (so `.group` raises `AttributeError` on `None`). -/
def matchIRC (line : PyStr) : Option IrcGroups :=
  match matchTagsPart line with
  | some (tg, rest) =>
    match matchAfterTags (some tg) rest with
    | some g => some g
    | none => matchAfterTags none line
  | none => matchAfterTags none line

/-- `message._TAG_UNESCAPE_MAP` lookup with identity default. -/
def tagUnescapeChar (c : Char) : Char :=
  if c = ':' then ';'
  else if c = 's' then ' '
  else if c = 'n' then '\n'
  else if c = 'r' then '\r'
  else c

/-- `message._TAG_UNESCAPE_RE.sub`: each `\` followed by a
non-newline character is replaced by the mapped character; a `\` before
a newline or at the end stays. -/
def tagUnescape : PyStr → PyStr
  | [] => []
  | [c] => [c]
  | c1 :: c2 :: rest =>
    if c1 = '\\' ∧ c2 ≠ '\n' then tagUnescapeChar c2 :: tagUnescape rest
    else c1 :: tagUnescape (c2 :: rest)

/-- `message.Tag.parse`: split on the first `=`, unescape the value, an
empty value becomes `None`. -/
def Tag.parse (item : PyStr) : Tag :=
  let p := partitionOn item ['=']
  let value := tagUnescape p.2.2
  { key := p.1, value := if value.isEmpty then none else some value }

/-- `message.Tag.from_group`: a missing or empty group carries no tags
(`Event.__init__` turns the `None` into `[]`); otherwise split on `;`
and parse each item. -/
def Tag.from_group : Option PyStr → List Tag
  | none => []
  | some g => if g.isEmpty then [] else (splitOnE ';' g).map Tag.parse

/-- `message.Arguments.from_group`: split on the first `" :"`; the part
before it splits on whitespace runs, the part after it (when found) is
one trailing argument. -/
def Arguments.from_group : Option PyStr → List PyStr
  | none => []
  | some g =>
    if g.isEmpty then []
    else
      let p := partitionOn g (" :".toList)
      if p.2.1 then pySplitWs p.1 ++ [p.2.2] else pySplitWs p.1

/-- `NickMask.from_group`: the prefix string itself, `None` when the
group is missing or empty. -/
def NickMask.from_group : Option PyStr → Option PyStr
  | none => none
  | some g => if g.isEmpty then none else some g

/-- `NickMask.nick`: the part before the first `!`. -/
def NickMask.nick (s : PyStr) : PyStr := (partitionOn s ['!']).1

/-- `client.is_channel`: non-empty and starting with `#`, `&`, `+` or
`!`. -/
def is_channel (s : PyStr) : Bool :=
  ¬s.isEmpty ∧ (s.headI = '#' ∨ s.headI = '&' ∨ s.headI = '+' ∨ s.headI = '!')

/-- `is_channel` applied to a possibly-`None` target (`None` is falsy). -/
def is_channelO : Option PyStr → Bool
  | none => false
  | some s => is_channel s

/-- Modelled from the spec: the numeric table is the external resource
file `codes.txt` (one whitespace-separated `<code> <symbolic>` line per
numeric), which is not part of the source tree; the spec names the
mappings `001 → welcome` and `005 → featurelist`, and looking up an
unknown code returns the lowercased input unchanged, so only those two
named rows are modelled here. -/
def numeric : List (PyStr × PyStr) :=
  [("001".toList, "welcome".toList), ("005".toList, "featurelist".toList)]

/-- `ServerConnection._command_from_group`: lowercase, then translate a
known numeric into its symbolic name. -/
def _command_from_group (group : PyStr) : PyStr :=
  (fdGet? id numeric (pyLower group)).getD (pyLower group)

/-- `ServerConnection.server_name`: `real_server_name or ""`. -/
def SCState.server_name (st : SCState) : PyStr :=
  if st.real_server_name.isEmpty then [] else st.real_server_name

/-- The `Event("all_raw_messages", self.server_name, None, [line])`
emitted at the top of `_process_line`. -/
def allRawEvent (st : SCState) (line : PyStr) : Event :=
  { type := "all_raw_messages".toList, source := some st.server_name,
    target := none, arguments := [line], tags := [] }

/-- Truthiness of an optional string (`None` and `""` are falsy). -/
def pyTruthy : Option PyStr → Bool
  | none => false
  | some s => ¬s.isEmpty


/-- Iterating `self.features.prefix` (`for prefix in ...`): a dict
yields its keys, a string its characters, a list its items; iterating
the bare `True` flag or an int raises `TypeError`.  (Under the `prefix`
attribute only `prefixMap`, `flag`, `num` and `str` can actually be
stored, since the parser staticmethods are selected by exact feature
name.) -/
def featurePrefixes : FeatureValue → Option (List PyStr)
  | .prefixMap l => some (l.map (fun p => [p.1]))
  | .str s => some (s.map (fun c => [c]))
  | .strList l => some l
  | .intMap l => some (l.map (·.1))
  | .flag => none
  | .num _ => none

/-- The `remove_prefix` helper of the `namreply` branch: repeatedly drop
the first character while some prefix matches the front of the nick
(IRCv3 multi-prefix).  The Python `while removed` loop reaches exactly
this fixpoint; it could fail to terminate only for an empty prefix, a
shape the `prefix` attribute's parsers never store. -/
def remove_prefixes (ps : List PyStr) : PyStr → PyStr
  | [] => []
  | c :: rest =>
    if ps.any (fun p => p.isPrefixOf (c :: rest)) then remove_prefixes ps rest
    else c :: rest

/-- The `trigger_delayed_join(channel, force)` closure of
`_process_line`: when the channel is known and has a pending delayed
`join` event, emit it (clearing it first) if forced or
`_should_trigger_delayed_join_event()`; a missing channel's `KeyError`
is swallowed. -/
def trigger_delayed_join (channel : PyStr) (force : Bool) (now : ℚ) :
    ProcM Unit := do
  let st ← getSt
  match fdGet? id st.channels channel with
  | none => pure ()
  | some ch =>
    match ch.delayed_join_event with
    | none => pure ()
    | some ev =>
      if ch.should_trigger now ∨ force then
        setSt
          { st with
            channels :=
              (fdSet id st.channels channel
                { ch with delayed_join_event := none }) }
        emitEv ev
      else pure ()

/-- The `# Special handling of events for internal use` chain of
`_process_line`, in source order.  Iterating `self._channels` yields its
keys (strings), so the `nick`/`quit`/`kill` update loops raise
`AttributeError` on the first key when the dict is non-empty; the
"someone else" branches of `join`/`part`/`kick` read the `channels`
property, which re-acquires the connection's non-reentrant
`threading.Lock` already held by `run()` around `process_data` —
modelled as the `deadlock` outcome. -/
def special_handling (now : ℚ) (source : Option PyStr) (command : PyStr)
    (arguments : List PyStr) : ProcM Unit := do
  if command = "nick".toList ∧ 1 ≤ arguments.length then
    let st ← getSt
    match source with
    | none => pyRaise .attributeError
    | some src =>
      if pyLower (NickMask.nick src) = pyLower st.real_nickname then
        setSt { st with real_nickname := arguments.headI }
      else
        if st.channels.isEmpty then pure () else pyRaise .attributeError
  else if command = "welcome".toList then
    let st ← getSt
    match arguments with
    | [] => pyRaise .indexError
    | a :: _ => setSt { st with real_nickname := a }
  else if command = "featurelist".toList then
    let st ← getSt
    let r := FeatureSet.load st.features arguments
    setSt { st with features := r.1 }
    match r.2 with
    | none => pure ()
    | some e => pyRaise e
  else if command = "join".toList ∧ 1 ≤ arguments.length then
    let st ← getSt
    match source with
    | none => pyRaise .attributeError
    | some src =>
      if pyLower ((partitionOn src ['!']).1) = pyLower st.real_nickname then
        setSt
          { st with
            channels :=
              (fdSet id st.channels (pyLower arguments.headI)
                (SCChannel.make arguments.headI now)) }
      else pyRaise .deadlock
  else if command = "part".toList ∧ 1 ≤ arguments.length then
    let st ← getSt
    match source with
    | none => pyRaise .attributeError
    | some src =>
      if pyLower ((partitionOn src ['!']).1) = pyLower st.real_nickname then
        setSt
          { st with
            channels := (fdErase id st.channels (pyLower arguments.headI)) }
      else pyRaise .deadlock
  else if command = "kick".toList ∧ 2 ≤ arguments.length then
    let st ← getSt
    if pyLower arguments.tail.headI = pyLower st.real_nickname then
      setSt
        { st with
          channels := (fdErase id st.channels (pyLower arguments.headI)) }
    else pyRaise .deadlock
  else if command = "quit".toList then
    let st ← getSt
    match arguments with
    | [] => pyRaise .indexError
    | a :: _ =>
      if pyLower a ≠ pyLower st.real_nickname then
        if st.channels.isEmpty then pure () else pyRaise .attributeError
      else pure ()
  else if command = "kill".toList then
    let st ← getSt
    match arguments with
    | [] => pyRaise .indexError
    | a :: _ =>
      if pyLower a ≠ pyLower st.real_nickname then
        if st.channels.isEmpty then pure () else pyRaise .attributeError
      else pure ()
  else if command = "namreply".toList ∧ 4 ≤ arguments.length then
    let st ← getSt
    match fdGet? id st.channels (pyLower arguments.tail.tail.headI) with
    | none => pure ()
    | some ch =>
      match fdGet? id st.features ("prefix".toList) with
      | none => pyRaise .attributeError
      | some fv =>
        match featurePrefixes fv with
        | none => pyRaise .typeError
        | some ps =>
          setSt
            { st with
              channels :=
                (fdSet id st.channels (pyLower arguments.tail.tail.headI)
                  { ch with
                    names_tmp :=
                      (ch.names_tmp ++
                        (splitOnE ' ' arguments.tail.tail.tail.headI).map
                          (remove_prefixes ps)) }) }
  else if command = "currenttopic".toList ∧ 3 ≤ arguments.length then
    let st ← getSt
    match fdGet? id st.channels (pyLower arguments.tail.headI) with
    | none => pure ()
    | some ch =>
      setSt
        { st with
          channels :=
            (fdSet id st.channels (pyLower arguments.tail.headI)
              { ch with topic := some arguments.tail.tail.headI }) }
      trigger_delayed_join (pyLower arguments.tail.headI) false now
  else if command = "endofnames".toList ∧ 2 ≤ arguments.length then
    let st ← getSt
    match fdGet? id st.channels (pyLower arguments.tail.headI) with
    | none => pure ()
    | some ch =>
      setSt
        { st with
          channels :=
            (fdSet id st.channels (pyLower arguments.tail.headI)
              { ch with users := some ch.names_tmp, names_tmp := [] }) }
      trigger_delayed_join (pyLower arguments.tail.headI) false now
  else if command = "privmsg".toList ∨ command = "notice".toList ∨
      command = "join".toList ∨ command = "part".toList ∨
      command = "kick".toList ∨ command = "mode".toList ∨
      command = "topic".toList then
    match arguments with
    | [] => pyRaise .indexError
    | a :: _ => trigger_delayed_join (pyLower a) true now
  else pure ()

/-- The chunk loop of `_handle_message`: `command` is reassigned on each
tagged chunk and the new value carries into later iterations; a `ctcp`
whose first element is `ACTION` additionally emits `action` with the
remaining elements. -/
def _handle_message_loop (source : Option PyStr) (target : PyStr)
    (tags : List Tag) : PyStr → List CtcpChunk → ProcM Unit
  | _, [] => ProcM.pure ()
  | command, CtcpChunk.tagged tag data :: rest => do
    let command :=
      if command = "privmsg".toList ∨ command = "pubmsg".toList then
        "ctcp".toList
      else "ctcpreply".toList
    let m := tag :: (match data with | some d => [d] | none => [])
    emitEv
      { type := command, source := source, target := some target,
        arguments := m, tags := tags }
    if command = "ctcp".toList ∧ m.headI = "ACTION".toList then
      emitEv
        { type := "action".toList, source := source, target := some target,
          arguments := m.tail, tags := tags }
    _handle_message_loop source target tags command rest
  | command, CtcpChunk.text s :: rest => do
    emitEv
      { type := command, source := source, target := some target,
        arguments := [s], tags := tags }
    _handle_message_loop source target tags command rest

/-- `ServerConnection._handle_message`: `target, msg = arguments[:2]`
(a `ValueError` when fewer than two arguments), CTCP dequoting of the
message, channel/private renaming of the command, then the chunk
loop. -/
def _handle_message (arguments : List PyStr) (command : PyStr)
    (source : Option PyStr) (tags : List Tag) : ProcM Unit :=
  match arguments with
  | target :: msg :: _ =>
    let command :=
      if command = "privmsg".toList then
        if is_channel target then "pubmsg".toList else command
      else
        if is_channel target then "pubnotice".toList else "privnotice".toList
    _handle_message_loop source target tags command (dequote msg)
  | _ => pyRaise .valueError

/-- The tail of `_handle_other` after the event is emitted: a
`featurelist` flushes a delayed `welcome`, a `myinfo` while one is
delayed records that 004 was seen. -/
def _handle_other_tail (command : PyStr) : ProcM Unit := do
  let st ← getSt
  if command = "featurelist".toList then
    if st.delayed_001 then
      match st.delayed_001_event with
      | some ev => do
        emitEv ev
        let st2 ← getSt
        setSt { st2 with welcome_triggered := true, delayed_001 := false }
      | none => pyRaise .attributeError
    else pure ()
  else if command = "myinfo".toList ∧ st.delayed_001 then
    setSt { st with delayed_001_saw_004 := true }
  else pure ()

/-- `ServerConnection._handle_other`: split the arguments into target
and rest (`quit` keeps a single-argument payload, `ping` keeps them
all, `arguments[0]` raising `IndexError` for both when empty), rename
`mode` on a non-channel target to `umode`, then either delay the event
(a first `welcome`; a `join` for a known channel) or emit it and run
the delayed-001 tail. -/
def _handle_other (now : ℚ) (arguments : List PyStr) (command0 : PyStr)
    (source : Option PyStr) (tags : List Tag) : ProcM Unit := do
  let ta ←
    if command0 = "quit".toList then
      match arguments with
      | [] => pyRaise (α := Option PyStr × List PyStr) .indexError
      | a :: _ => ProcM.pure ((none : Option PyStr), [a])
    else if command0 = "ping".toList then
      match arguments with
      | [] => pyRaise .indexError
      | a :: _ => ProcM.pure (some a, arguments)
    else
      match arguments with
      | [] => ProcM.pure ((none : Option PyStr), ([] : List PyStr))
      | a :: rest => ProcM.pure (some a, rest)
  let command :=
    if command0 = "mode".toList ∧ ¬is_channelO ta.1 then "umode".toList
    else command0
  let event : Event :=
    { type := command, source := source, target := ta.1,
      arguments := ta.2, tags := tags }
  let st ← getSt
  if command = "welcome".toList ∧ st.delayed_001 = false then
    setSt
      { st with
        delayed_001 := true, delayed_001_event := some event,
        delayed_001_time := now }
  else if command = "join".toList ∧ ta.1.isSome then
    match fdGet? id st.channels (ta.1.getD []) with
    | some ch =>
      setSt
        { st with
          channels :=
            (fdSet id st.channels (ta.1.getD [])
              { ch with delayed_join_event := some event }) }
    | none => do
      emitEv event
      _handle_other_tail command
  else do
    emitEv event
    _handle_other_tail command

/-- `ServerConnection._process_line`: emit `all_raw_messages` with the
raw line first, then match the RFC 1459 regex (`.group` on a failed
match raises `AttributeError`), extract source/command/arguments/tags,
learn the real server name from the first prefixed line, run the
special-handling chain, and fan out to `_handle_message` or
`_handle_other`. -/
def _process_line (now : ℚ) (line : PyStr) : ProcM Unit := do
  let st0 ← getSt
  emitEv (allRawEvent st0 line)
  match matchIRC line with
  | none => pyRaise .attributeError
  | some (tagsG, prefixG, commandG, argG) => do
    let source := NickMask.from_group prefixG
    let command := _command_from_group commandG
    let arguments := Arguments.from_group argG
    let tags := Tag.from_group tagsG
    let st ← getSt
    if pyTruthy source ∧ st.real_server_name.isEmpty then
      setSt { st with real_server_name := source.getD [] }
    special_handling now source command arguments
    if command = "privmsg".toList ∨ command = "notice".toList then
      _handle_message arguments command source tags
    else
      _handle_other now arguments command source tags

/-- The line loop of `process_data`, phrased over the `\n`-split of the
buffer (the Python loop repeatedly slices the buffer at
`buffer.find(b"\n")`, which walks exactly the complete `\n`-separated
segments): each segment loses a trailing `\r`, is decoded, and
non-empty decoded lines go through `_process_line`; an escaping
exception stops the loop, and the segments not yet consumed are
returned so the caller can reconstruct the remaining buffer. -/
def processLinesList (now : ℚ) :
    SCState → List Bytes → Except PyErr Unit × SCState × List Event × List Bytes
  | st, [] => (.ok (), st, [], [])
  | st, l :: rest =>
    let decoded := decodeLine (stripCR l)
    if 0 < decoded.length then
      let p := _process_line now decoded st
      match p.1 with
      | .ok _ =>
        let q := processLinesList now p.2.1 rest
        (q.1, q.2.1, p.2.2 ++ q.2.2.1, q.2.2.2)
      | .error e => (.error e, p.2.1, p.2.2, rest)
    else processLinesList now st rest

/-- `ServerConnection.disconnect("Connection reset by peer")` as called
from `process_data`: when connected, clear the flag and hand a
`disconnect` event (source the configured server, target `""`) to the
client; when already disconnected it only closes the socket. -/
def disconnectSC (st : SCState) : SCState × List Event :=
  if st.connected then
    ({ st with connected := false },
      [{ type := "disconnect".toList, source := some st.server,
         target := some [], arguments := ["Connection reset by peer".toList],
         tags := [] }])
  else (st, [])

/-- `ServerConnection.process_data`: run the byte-read loop; on a hung-up
peer, disconnect and return; if the buffer still holds no newline,
discard it and return; otherwise run every complete line through the
line loop, the unterminated tail becoming the new buffer (on an escaping
exception, the unconsumed segments rejoined with `\n`).  Returns the
outcome, the new connection state, the events handed to `_handle_event`
in order, the new buffer, and the bytes still unread on the socket. -/
def process_data (now : ℚ) (st : SCState) (buffer stream : Bytes) :
    Except PyErr Unit × SCState × List Event × Bytes × Bytes :=
  let rl := readLoop buffer stream
  if rl.2.2 then
    (.ok (), (disconnectSC st).1, (disconnectSC st).2, rl.1, rl.2.1)
  else if 10 ∈ rl.1 then
    let parts := splitOnE 10 rl.1
    let q := processLinesList now st parts.dropLast
    match q.1 with
    | .ok _ => (.ok (), q.2.1, q.2.2.1, parts.getLastD [], rl.2.1)
    | .error e =>
      (.error e, q.2.1, q.2.2.1,
        List.intercalate [10] (q.2.2.2 ++ [parts.getLastD []]), rl.2.1)
  else (.ok (), st, [], [], rl.2.1)


theorem nlIdx_replicate (n : Nat) : nlIdx (List.replicate n 65) = n := by
  induction n with
  | zero => simp [nlIdx]
  | succ k ih => simp [List.replicate_succ, nlIdx, ih]

/-- Full characterization of the byte-read loop: it consumes exactly
`readStop` bytes of the stream (one past the first newline, or up to
the 600-byte cap, or all that is available, whichever is least — and
none at all when the buffer already has a newline or 600 bytes), and it
reports a hang-up exactly when it had to read from an exhausted
stream. -/
theorem readLoop_eq (buf stream : Bytes) :
    readLoop buf stream =
      (buf ++ stream.take (readStop buf stream),
        stream.drop (readStop buf stream),
        decide (stream = [] ∧ buf.length < 600 ∧ 10 ∉ buf)) := by
  induction stream generalizing buf with
  | nil =>
    by_cases hc : buf.length < 600 ∧ 10 ∉ buf
    · simp [readLoop, readStop, hc]
    · simp [readLoop, readStop, hc]
  | cons b rest ih =>
    by_cases hc : buf.length < 600 ∧ 10 ∉ buf
    · have e1 : readStop buf (b :: rest) =
          min (rest.length + 1)
            (min (600 - buf.length) (nlIdx (b :: rest) + 1)) := by
        simp only [readStop]
        rw [if_pos hc]
        simp
      by_cases hr : rest = []
      · subst hr
        have h1 : readStop buf [b] = 1 := by
          rw [e1]
          have hb : nlIdx [b] = 0 ∨ nlIdx [b] = 1 := by
            by_cases hb10 : b = 10 <;> simp [nlIdx, hb10]
          have hc1 := hc.1
          simp only [List.length_nil]
          omega
        simp [readLoop, hc, h1]
      · have hne : ¬(rest.isEmpty = true) := by
          simp [List.isEmpty_iff, hr]
        have key : readStop buf (b :: rest) =
            readStop (buf ++ [b]) rest + 1 := by
          rw [e1]
          by_cases hb10 : b = 10
          · subst hb10
            have h0 : readStop (buf ++ [10]) rest = 0 := by
              simp [readStop]
            have hnl : nlIdx (10 :: rest) = 0 := by simp [nlIdx]
            rw [h0, hnl]
            have hc1 := hc.1
            omega
          · have hnl : nlIdx (b :: rest) = nlIdx rest + 1 := by
              simp [nlIdx, hb10]
            have hmem : 10 ∉ buf ++ [b] := by
              simp [hc.2]
              exact fun h => hb10 h.symm
            rw [hnl]
            by_cases h6 : buf.length + 1 < 600
            · have hcnd : (buf ++ [b]).length < 600 ∧ 10 ∉ buf ++ [b] :=
                ⟨by simpa using h6, hmem⟩
              have e2 : readStop (buf ++ [b]) rest =
                  min rest.length
                    (min (600 - (buf.length + 1)) (nlIdx rest + 1)) := by
                simp only [readStop]
                rw [if_pos hcnd]
                simp
              rw [e2]
              have hc1 := hc.1
              omega
            · have hcnd : ¬((buf ++ [b]).length < 600 ∧ 10 ∉ buf ++ [b]) := by
                rintro ⟨hl, -⟩
                simp at hl
                omega
              have e2 : readStop (buf ++ [b]) rest = 0 := by
                simp only [readStop]
                rw [if_neg hcnd]
              rw [e2]
              have hc1 := hc.1
              omega
        simp only [readLoop]
        rw [if_pos hc, if_neg hne, ih (buf ++ [b]), key]
        simp [List.take_succ_cons, List.drop_succ_cons, List.append_assoc, hr]
    · simp [readLoop, readStop, hc]

/-- When the read loop neither hangs up nor produces a newline, the
buffer is discarded: no line is processed, no event is emitted, the
state is untouched. -/
theorem process_data_discard (now : ℚ) (st : SCState) (buf stream : Bytes)
    (hnl : 10 ∉ (readLoop buf stream).1)
    (hdc : (readLoop buf stream).2.2 = false) :
    process_data now st buf stream =
      (.ok (), st, [], [], (readLoop buf stream).2.1) := by
  simp [process_data, hnl, hdc]

/-- The `all_raw_messages` event with the raw line is the first event
of every `_process_line` call, whatever the line parses to. -/
theorem _process_line_allRaw (now : ℚ) (line : PyStr) (st : SCState) :
    ∃ tr, (_process_line now line st).2.2 = allRawEvent st line :: tr := by
  unfold _process_line
  simp only [getSt_bind]
  rw [emit_bind_trace]
  exact ⟨_, rfl⟩

/-- Per line of a wake: when the next complete line decodes non-empty,
the next event emitted is its `all_raw_messages`, before anything the
parse and classification of that line produce. -/
theorem processLinesList_head (now : ℚ) (st : SCState) (l : Bytes)
    (rest : List Bytes) (hd : decodeLine (stripCR l) ≠ []) :
    ∃ tr, (processLinesList now st (l :: rest)).2.2.1 =
      allRawEvent st (decodeLine (stripCR l)) :: tr := by
  obtain ⟨tr1, htr⟩ := _process_line_allRaw now (decodeLine (stripCR l)) st
  have hlen : 0 < (decodeLine (stripCR l)).length := List.length_pos.mpr hd
  rcases hp : _process_line now (decodeLine (stripCR l)) st with ⟨r, st1, tr1x⟩
  have htr2 : tr1x = allRawEvent st (decodeLine (stripCR l)) :: tr1 := by
    have h := htr
    rw [hp] at h
    simpa using h
  cases r with
  | ok u =>
    refine ⟨tr1 ++ (processLinesList now st1 rest).2.2.1, ?_⟩
    simp [processLinesList, hlen, hp, htr2]
  | error e =>
    refine ⟨tr1, ?_⟩
    simp [processLinesList, hlen, hp, htr2]

/-- Equality of `Except` results is decidable (needed to evaluate the
receive path's outcome on concrete inputs). -/
instance {e a : Type} [DecidableEq e] [DecidableEq a] :
    DecidableEq (Except e a) := fun x y =>
  match x, y with
  | .ok u, .ok v =>
    if h : u = v then .isTrue (congrArg Except.ok h)
    else .isFalse (fun he => h (Except.ok.inj he))
  | .error u, .error v =>
    if h : u = v then .isTrue (congrArg Except.error h)
    else .isFalse (fun he => h (Except.error.inj he))
  | .ok _, .error _ => .isFalse (fun he => Except.noConfusion he)
  | .error _, .ok _ => .isFalse (fun he => Except.noConfusion he)

/-- C6: counterexample to "reads up to 16384 bytes from the socket into
the buffer before splitting off and processing complete lines".  With
700 bytes available on the socket (no newline among them) and an empty
buffer, one wake of `ServerConnection.process_data` consumes exactly
600 bytes — 100 remain unread — and then throws the whole buffer away
unprocessed, emitting nothing; a 16384-byte read would have consumed
all 700. -/
theorem C6_counterexample :
    process_data 0 scInitial [] (List.replicate 700 65) =
      (.ok (), scInitial, [], [], List.replicate 100 65) := by
  decide

/-- C6 (amended): on each wake, `ServerConnection.process_data` reads
from the socket one byte at a time, stopping as soon as the buffer
holds a newline or reaches 600 bytes or the socket has no more data —
never taking more than `readStop` bytes, which is capped by 600 minus
the buffered length, not 16384 — and it hangs up exactly when a read
finds the stream exhausted; a buffer still without a newline is
discarded wholesale, unprocessed; and for each complete line whose
decode is non-empty the `all_raw_messages` event carrying that line is
emitted before anything its parse and classification produce. -/
theorem C6_receive_amended :
    (∀ buf stream : Bytes,
        readLoop buf stream =
          (buf ++ stream.take (readStop buf stream),
            stream.drop (readStop buf stream),
            decide (stream = [] ∧ buf.length < 600 ∧ 10 ∉ buf))) ∧
    (∀ (now : ℚ) (st : SCState) (buf stream : Bytes),
        10 ∉ (readLoop buf stream).1 →
        (readLoop buf stream).2.2 = false →
        process_data now st buf stream =
          (.ok (), st, [], [], (readLoop buf stream).2.1)) ∧
    (∀ (now : ℚ) (line : PyStr) (st : SCState),
        ∃ tr, (_process_line now line st).2.2 = allRawEvent st line :: tr) ∧
    (∀ (now : ℚ) (st : SCState) (l : Bytes) (rest : List Bytes),
        decodeLine (stripCR l) ≠ [] →
        ∃ tr, (processLinesList now st (l :: rest)).2.2.1 =
          allRawEvent st (decodeLine (stripCR l)) :: tr) :=
  ⟨fun buf stream => readLoop_eq buf stream,
    fun now st buf stream hnl hdc => process_data_discard now st buf stream hnl hdc,
    fun now line st => _process_line_allRaw now line st,
    fun now st l rest hd => processLinesList_head now st l rest hd⟩

/-- C6 witness: a wake that finds the two bytes `PI` and no newline
consumes both and discards them, exactly as the amended discard clause
states at this concrete input. -/
theorem C6_witness :
    process_data 0 scInitial [] [80, 73] =
      (.ok (), scInitial, [], [], (readLoop [] [80, 73]).2.1) :=
  C6_receive_amended.2.1 0 scInitial [] [80, 73] (by decide) (by decide)

end Irc
